import Mathlib

/-!
# Verification of the ZOF (Zero-Of-Functions) root-finding solver

Shallow embedding of the six numerical methods implemented in
`ZOF_CLI.py` (and duplicated, with string-formatted iteration records, in
`app.py`'s `run_method`), together with theorems settling the specification
claims about them.

Modelling conventions:
* Python floats are modelled by `ℚ` (exact rational arithmetic); the claims
  verified here are structural (which branch runs, what the trace contains,
  exact halving, bracket containment), not about floating-point rounding.
* Each method returns `Except String (root × trace)`, mirroring the Python
  convention of returning `(root, iterations)` on success and
  `(None, message)` on failure.
* The per-iteration dictionaries appended to `iterations` become `structure`s
  with the same field names.
* The Python `for i in range(1, max_iter + 1)` loop becomes a structurally
  recursive function on the number of remaining iterations, carrying the
  1-based index `i`; the records it produces (in order) are exactly the rows
  the Python loop appends.
-/

/-- One row of the `iterations` list built by `bisection` in `ZOF_CLI.py`
(line 38): `{'iter': i, 'a': a, 'b': b, 'mid': c, 'f_mid': fc, 'error': error}`. -/
structure BisectRec where
  iter : ℕ
  a : ℚ
  b : ℚ
  mid : ℚ
  f_mid : ℚ
  error : ℚ
deriving DecidableEq

/-- The loop of `bisection` (`ZOF_CLI.py` lines 33-50): `n` is the number of
remaining iterations, `i` the current 1-based index.  When the loop exhausts,
the Python function returns `(a + b) / 2` of the *updated* bracket (line 50). -/
def bisectGo (f : ℚ → ℚ) (tol : ℚ) : ℕ → ℕ → ℚ → ℚ → ℚ × List BisectRec
  | 0, _, a, b => ((a + b) / 2, [])
  | n + 1, i, a, b =>
    let c := (a + b) / 2
    let fc := f c
    let err := |b - a|
    let row : BisectRec := ⟨i, a, b, c, fc, err⟩
    if |fc| < tol ∨ err < tol then (c, [row])
    else if f a * fc < 0 then
      let p := bisectGo f tol n (i + 1) a c
      (p.1, row :: p.2)
    else
      let p := bisectGo f tol n (i + 1) c b
      (p.1, row :: p.2)

/-- `bisection` from `ZOF_CLI.py` (lines 28-50).  The guard on line 29 rejects
`f(a) * f(b) >= 0` before any iteration. -/
def bisection (f : ℚ → ℚ) (a b tol : ℚ) (max_iter : ℕ) :
    Except String (ℚ × List BisectRec) :=
  if f a * f b ≥ 0 then
    .error "Bisection fails: f(a) and f(b) must have opposite signs."
  else
    .ok (bisectGo f tol max_iter 1 a b)

/-- One row of the `iterations` list built by `regula_falsi` in `ZOF_CLI.py`
(line 69): `{'iter': i, 'a': a, 'b': b, 'c': c, 'f_c': fc, 'error': error}`. -/
structure RegulaRec where
  iter : ℕ
  a : ℚ
  b : ℚ
  c : ℚ
  f_c : ℚ
  error : ℚ
deriving DecidableEq

/-- The loop of `regula_falsi` (`ZOF_CLI.py` lines 57-80).  `lastc` is the
Python local variable `c` from the previous iteration: when the loop exhausts,
line 80 returns that `c` (with `max_iter = 0` the name is unbound in Python —
modelled by `lastc = none`). -/
def regulaGo (f : ℚ → ℚ) (tol : ℚ) :
    ℕ → ℕ → ℚ → ℚ → Option ℚ → Except String (Option ℚ × List RegulaRec)
  | 0, _, _, _, lastc => .ok (lastc, [])
  | n + 1, i, a, b, _ =>
    let fa := f a
    let fb := f b
    if fb - fa = 0 then .error "Division by zero encountered."
    else
      let c := (a * fb - b * fa) / (fb - fa)
      let fc := f c
      let err := |fc|
      let row : RegulaRec := ⟨i, a, b, c, fc, err⟩
      if |fc| < tol then .ok (some c, [row])
      else if f a * fc < 0 then
        match regulaGo f tol n (i + 1) a c (some c) with
        | .error msg => .error msg
        | .ok p => .ok (p.1, row :: p.2)
      else
        match regulaGo f tol n (i + 1) c b (some c) with
        | .error msg => .error msg
        | .ok p => .ok (p.1, row :: p.2)

/-- `regula_falsi` from `ZOF_CLI.py` (lines 52-80), with the same bracketing
guard as `bisection`. -/
def regula_falsi (f : ℚ → ℚ) (a b tol : ℚ) (max_iter : ℕ) :
    Except String (Option ℚ × List RegulaRec) :=
  if f a * f b ≥ 0 then
    .error "Regula Falsi fails: f(a) and f(b) must have opposite signs."
  else
    regulaGo f tol max_iter 1 a b none

/-- One row of the `iterations` list built by `secant` in `ZOF_CLI.py`
(line 94): `{'iter': i, 'x_prev': x0, 'x_curr': x1, 'x_new': x2, 'error': error}`. -/
structure SecantRec where
  iter : ℕ
  x_prev : ℚ
  x_curr : ℚ
  x_new : ℚ
  error : ℚ
deriving DecidableEq

/-- The loop of `secant` (`ZOF_CLI.py` lines 84-104); on exhaustion line 104
returns the current `x1`, which after the shift is the last computed `x2`. -/
def secantGo (f : ℚ → ℚ) (tol : ℚ) :
    ℕ → ℕ → ℚ → ℚ → Except String (ℚ × List SecantRec)
  | 0, _, _, x1 => .ok (x1, [])
  | n + 1, i, x0, x1 =>
    let fx0 := f x0
    let fx1 := f x1
    if fx1 - fx0 = 0 then .error "Division by zero: f(x1) - f(x0) is zero."
    else
      let x2 := x1 - (fx1 * (x1 - x0)) / (fx1 - fx0)
      let err := |x2 - x1|
      let row : SecantRec := ⟨i, x0, x1, x2, err⟩
      if err < tol then .ok (x2, [row])
      else
        match secantGo f tol n (i + 1) x1 x2 with
        | .error msg => .error msg
        | .ok p => .ok (p.1, row :: p.2)

/-- `secant` from `ZOF_CLI.py` (lines 82-104); no precondition is enforced. -/
def secant (f : ℚ → ℚ) (x0 x1 tol : ℚ) (max_iter : ℕ) :
    Except String (ℚ × List SecantRec) :=
  secantGo f tol max_iter 1 x0 x1

/-- One row of the `iterations` list built by `newton_raphson` in `ZOF_CLI.py`
(line 120). -/
structure NewtonRec where
  iter : ℕ
  x_curr : ℚ
  f_x : ℚ
  df_x : ℚ
  x_next : ℚ
  error : ℚ
deriving DecidableEq

/-- The loop of `newton_raphson` (`ZOF_CLI.py` lines 110-129); on exhaustion
line 129 returns the current `x_curr`, which is the last computed `x_next`. -/
def newtonGo (f df : ℚ → ℚ) (tol : ℚ) :
    ℕ → ℕ → ℚ → Except String (ℚ × List NewtonRec)
  | 0, _, x => .ok (x, [])
  | n + 1, i, x =>
    let fx := f x
    let dfx := df x
    if dfx = 0 then .error "Derivative is zero. Method fails."
    else
      let xn := x - fx / dfx
      let err := |xn - x|
      let row : NewtonRec := ⟨i, x, fx, dfx, xn, err⟩
      if err < tol then .ok (xn, [row])
      else
        match newtonGo f df tol n (i + 1) xn with
        | .error msg => .error msg
        | .ok p => .ok (p.1, row :: p.2)

/-- `newton_raphson` from `ZOF_CLI.py` (lines 106-129).  `df` is the callable
produced by `get_derivative` (exact symbolic differentiation via sympy). -/
def newton_raphson (f df : ℚ → ℚ) (x0 tol : ℚ) (max_iter : ℕ) :
    Except String (ℚ × List NewtonRec) :=
  newtonGo f df tol max_iter 1 x0

/-- One row of the `iterations` list built by `fixed_point` in `ZOF_CLI.py`
(line 140). -/
structure FixedRec where
  iter : ℕ
  x_curr : ℚ
  g_x : ℚ
  error : ℚ
deriving DecidableEq

/-- The loop of `fixed_point` (`ZOF_CLI.py` lines 136-153).  The divergence
guard `error > 1e10` (line 150) is tested *after* the convergence test and the
`x_curr` update, inside the loop body. -/
def fixedGo (g : ℚ → ℚ) (tol : ℚ) :
    ℕ → ℕ → ℚ → Except String (ℚ × List FixedRec)
  | 0, _, x => .ok (x, [])
  | n + 1, i, x =>
    let xn := g x
    let err := |xn - x|
    let row : FixedRec := ⟨i, x, xn, err⟩
    if err < tol then .ok (xn, [row])
    else if err > 10 ^ 10 then .error "Method diverged."
    else
      match fixedGo g tol n (i + 1) xn with
      | .error msg => .error msg
      | .ok p => .ok (p.1, row :: p.2)

/-- `fixed_point` from `ZOF_CLI.py` (lines 131-153). -/
def fixed_point (g : ℚ → ℚ) (x0 tol : ℚ) (max_iter : ℕ) :
    Except String (ℚ × List FixedRec) :=
  fixedGo g tol max_iter 1 x0

/-- One row of the `iterations` list built by `modified_secant` in
`ZOF_CLI.py` (line 173). -/
structure ModSecRec where
  iter : ℕ
  x_curr : ℚ
  x_next : ℚ
  error : ℚ
deriving DecidableEq

/-- The loop of `modified_secant` (`ZOF_CLI.py` lines 159-182). -/
def modSecGo (f : ℚ → ℚ) (delta tol : ℚ) :
    ℕ → ℕ → ℚ → Except String (ℚ × List ModSecRec)
  | 0, _, x => .ok (x, [])
  | n + 1, i, x =>
    let fx := f x
    let fxd := f (x + delta)
    if fxd - fx = 0 then .error "Division by zero in Modified Secant."
    else
      let xn := x - (delta * fx) / (fxd - fx)
      let err := |xn - x|
      let row : ModSecRec := ⟨i, x, xn, err⟩
      if err < tol then .ok (xn, [row])
      else
        match modSecGo f delta tol n (i + 1) xn with
        | .error msg => .error msg
        | .ok p => .ok (p.1, row :: p.2)

/-- `modified_secant` from `ZOF_CLI.py` (lines 155-182). -/
def modified_secant (f : ℚ → ℚ) (x0 delta tol : ℚ) (max_iter : ℕ) :
    Except String (ℚ × List ModSecRec) :=
  modSecGo f delta tol max_iter 1 x0

/-- The bracket update applied after a non-terminating bisection iteration
(`ZOF_CLI.py` lines 45-48): keep `(a, c)` when `f(a) * f(c) < 0`, otherwise —
including the exact tie `f(a) * f(c) = 0` — keep `(c, b)`.  Stated as a
relation between consecutive trace rows. -/
def bisectStepRel (f : ℚ → ℚ) (r s : BisectRec) : Prop :=
  if f r.a * r.f_mid < 0 then s.a = r.a ∧ s.b = r.mid else s.a = r.mid ∧ s.b = r.b

/-- The identical bracket update in `regula_falsi` (`ZOF_CLI.py` lines 76-79). -/
def regulaStepRel (f : ℚ → ℚ) (r s : RegulaRec) : Prop :=
  if f r.a * r.f_c < 0 then s.a = r.a ∧ s.b = r.c else s.a = r.c ∧ s.b = r.b

/-- The root that `bisection` returns when the loop exhausts right after the
row `r` was appended: the midpoint of the bracket produced by applying the
lines 45-48 update to `r`'s bracket (`ZOF_CLI.py` line 50). -/
def bisectNextRoot (f : ℚ → ℚ) (r : BisectRec) : ℚ :=
  if f r.a * r.f_mid < 0 then (r.a + r.mid) / 2 else (r.mid + r.b) / 2

/-- Bracket width recorded in a bisection row. -/
def bisectWidth (r : BisectRec) : ℚ := |r.b - r.a|

/-- Bracket width recorded in a regula-falsi row. -/
def regulaWidth (r : RegulaRec) : ℚ := |r.b - r.a|

/-! ## Fallible evaluation (modelling Python exceptions from `f`)

`ZOF_CLI.py`'s methods call `f` with no `try`: an evaluation error (math
domain error, overflow, division by zero inside the compiled expression)
propagates out of the method function and is only caught by the `try/except`
wrapping the whole interaction in `main` (lines 212/282).  `app.py` wraps the
same loops in `run_method`'s own `try/except` (lines 24/128) and converts the
exception into an error outcome.  A failing evaluation is modelled by
`f : ℚ → Option ℚ` returning `none`; a `none` overall result means the
exception escaped the solver function. -/

/-- The `bisection` loop over a fallible function, propagating evaluation
failures; evaluation order (`f(c)` at line 35, `f(a)` at line 45) is the
source's. -/
def bisectGoE (f : ℚ → Option ℚ) (tol : ℚ) :
    ℕ → ℕ → ℚ → ℚ → Option (ℚ × List BisectRec)
  | 0, _, a, b => some ((a + b) / 2, [])
  | n + 1, i, a, b =>
    let c := (a + b) / 2
    match f c with
    | none => none
    | some fc =>
      let err := |b - a|
      let row : BisectRec := ⟨i, a, b, c, fc, err⟩
      if |fc| < tol ∨ err < tol then some (c, [row])
      else
        match f a with
        | none => none
        | some fa =>
          if fa * fc < 0 then
            match bisectGoE f tol n (i + 1) a c with
            | none => none
            | some p => some (p.1, row :: p.2)
          else
            match bisectGoE f tol n (i + 1) c b with
            | none => none
            | some p => some (p.1, row :: p.2)

/-- `bisection` over a fallible function: `f(a)` and `f(b)` are evaluated by
the guard itself (line 29), so a failure there also escapes. -/
def bisectionE (f : ℚ → Option ℚ) (a b tol : ℚ) (max_iter : ℕ) :
    Option (Except String (ℚ × List BisectRec)) :=
  match f a with
  | none => none
  | some fa =>
    match f b with
    | none => none
    | some fb =>
      if fa * fb ≥ 0 then
        some (.error "Bisection fails: f(a) and f(b) must have opposite signs.")
      else
        match bisectGoE f tol max_iter 1 a b with
        | none => none
        | some p => some (.ok p)

/-- Outcome shape of `app.py`'s `run_method`: either a success dict
`{"root": ..., "history": ..., "iters": ...}` (history abstracted to its
length) or an error dict `{"error": detail}`. -/
inductive AppOutcome where
  | success (root : ℚ) (iters : ℕ)
  | failure (detail : String)
deriving DecidableEq

/-- The bisection branch of `app.py`'s `run_method` (lines 36-51): the same
numeric loop as `ZOF_CLI.bisection`, with the surrounding `try/except`
(lines 24, 128-129) converting any escaped evaluation exception into an
`{"error": str(e)}` outcome. -/
def run_method_bisection (f : ℚ → Option ℚ) (a b tol : ℚ) (max_iter : ℕ) :
    AppOutcome :=
  match bisectionE f a b tol max_iter with
  | none => .failure "exception"
  | some (.error msg) => .failure msg
  | some (.ok p) => .success p.1 p.2.length

/-- The `try/except` in `ZOF_CLI.main` (lines 212, 282-283): an exception
escaping the solver call is caught by the front end and turned into the
generic "An error occurred" message. -/
def cliMainGuard {α : Type} (run : Option α) : Except String α :=
  match run with
  | none => .error "An error occurred"
  | some v => .ok v

/-! ## The CLI result formatter -/

/-- The output block of `ZOF_CLI.main` (lines 264-280) for a successful run.
Line 270 reads `history[-1]['error']` and line 273 reads `history[0].keys()`
unconditionally; on an empty `history` the first of these raises an
`IndexError`, modelled by the `.error` result.  Row text is abstracted to one
string per row (the exact `ljust`/truncation formatting carries no logic). -/
def cliRenderOutput (error_msg : Option String) (result : ℚ)
    (history : List BisectRec) : Except String (List String) :=
  match error_msg with
  | some msg => .ok ["Error: " ++ msg]
  | none =>
    match history.getLast? with
    | none => .error "IndexError: list index out of range"
    | some last =>
      .ok (["Root found: " ++ toString result,
            "Iterations: " ++ toString history.length,
            "Final Error: " ++ toString last.error,
            "Iteration Table"] ++ history.map (fun _ => "row"))

/-! ## Concrete functions used in witnesses and counterexamples -/

/-- The identity expression `f(x) = x`. -/
def qid : ℚ → ℚ := fun x => x

/-- The expression `f(x) = x*x - 2` (the spec's `x**2 - 2`). -/
def qsq2 : ℚ → ℚ := fun x => x * x - 2

/-- The exact analytic derivative of `x**2 - 2`, as produced by
`get_derivative` (`ZOF_CLI.py` lines 20-24, sympy `diff`): `2*x`. -/
def qsq2d : ℚ → ℚ := fun x => 2 * x

/-- The expression `f(x) = x*x + 1` (the spec's no-sign-change example). -/
def qsqp1 : ℚ → ℚ := fun x => x * x + 1

/-- The constant-derivative function `1` used in a Newton witness run. -/
def qone : ℚ → ℚ := fun _ => 1

/-- The iteration function `g(x) = x + 1`. -/
def qsucc : ℚ → ℚ := fun x => x + 1

/-- The iteration function `g(x) = x + 2e10`, whose first step trips the
divergence guard. -/
def qbig : ℚ → ℚ := fun x => x + 2 * 10 ^ 10

/-- A fallible function undefined exactly at `x = 1/2` (a domain error at the
first bisection midpoint of `[-1, 2]`). -/
def fHole : ℚ → Option ℚ := fun x => if x = 1 / 2 then none else some x

/-- An everywhere-defined fallible function. -/
def fTotal : ℚ → Option ℚ := fun x => some x

/-- The root of a successful solver outcome. -/
def rootOf {α : Type} : Except String (ℚ × List α) → Option ℚ
  | .ok p => some p.1
  | .error _ => none

/-- The trace length (= number of completed iterations) of a solver outcome. -/
def traceLenOf {α : Type} : Except String (ℚ × List α) → ℕ
  | .ok p => p.2.length
  | .error _ => 0

/-! ## Arithmetic helper lemmas -/

/-- The midpoint of a bracket stays inside the bracket's hull. -/
lemma mid_mem_left (a b : ℚ) : min a b ≤ (a + b) / 2 := by
  rcases le_total a b with h | h
  · rw [min_eq_left h]; linarith
  · rw [min_eq_right h]; linarith

/-- The midpoint of a bracket stays inside the bracket's hull. -/
lemma mid_mem_right (a b : ℚ) : (a + b) / 2 ≤ max a b := by
  rcases le_total a b with h | h
  · rw [max_eq_right h]; linarith
  · rw [max_eq_left h]; linarith

/-- Distance from the midpoint to the left endpoint is exactly half the
width. -/
lemma abs_mid_sub_left (a b : ℚ) : |(a + b) / 2 - a| = |b - a| / 2 := by
  rw [show (a + b) / 2 - a = (b - a) / 2 by ring, abs_div]
  norm_num

/-- Distance from the right endpoint to the midpoint is exactly half the
width. -/
lemma abs_sub_mid_right (a b : ℚ) : |b - (a + b) / 2| = |b - a| / 2 := by
  rw [show b - (a + b) / 2 = (b - a) / 2 by ring, abs_div]
  norm_num

/-- Two points of an interval are at distance at most its length. -/
lemma abs_sub_le_width {lo hi x y : ℚ} (hx1 : lo ≤ x) (hx2 : x ≤ hi)
    (hy1 : lo ≤ y) (hy2 : y ≤ hi) : |x - y| ≤ hi - lo :=
  abs_sub_le_iff.mpr ⟨by linarith, by linarith⟩

/-- The hull width of a bracket `(a, b)` is `|b - a|`. -/
lemma max_sub_min_abs (a b : ℚ) : max a b - min a b = |b - a| := by
  rcases le_total a b with h | h
  · rw [max_eq_right h, min_eq_left h, abs_of_nonneg (by linarith)]
  · rw [max_eq_left h, min_eq_right h, abs_of_nonpos (by linarith)]
    ring

/-! ## Exhaustion lemmas (claim C1): when no row converges, the loop runs its
full fuel and the returned root is determined by the last row -/

/-- If no row of the bisection trace satisfies the convergence predicate of
`ZOF_CLI.py` line 42, the loop runs its full fuel and the returned root is the
midpoint of the bracket obtained by updating the last row's bracket. -/
lemma bisectGo_exhaust (f : ℚ → ℚ) (tol : ℚ) :
    ∀ (n i : ℕ) (a b : ℚ),
      (∀ row ∈ (bisectGo f tol n i a b).2, ¬(|row.f_mid| < tol ∨ row.error < tol)) →
      (bisectGo f tol n i a b).2.length = n ∧
      ∀ last ∈ (bisectGo f tol n i a b).2.getLast?,
        (bisectGo f tol n i a b).1 = bisectNextRoot f last := by
  intro n
  induction n with
  | zero =>
    intro i a b _
    simp [bisectGo]
  | succ n ih =>
    intro i a b hnc
    simp only [bisectGo] at hnc ⊢
    by_cases hconv : |f ((a + b) / 2)| < tol ∨ |b - a| < tol
    · rw [if_pos hconv] at hnc
      have h := hnc ⟨i, a, b, (a + b) / 2, f ((a + b) / 2), |b - a|⟩
        (List.mem_singleton_self _)
      exact absurd hconv h
    · rw [if_neg hconv] at hnc ⊢
      by_cases hsign : f a * f ((a + b) / 2) < 0
      · rw [if_pos hsign] at hnc ⊢
        dsimp only at hnc ⊢
        obtain ⟨ihl, ihr⟩ := ih (i + 1) a ((a + b) / 2)
          (fun row h => hnc row (List.mem_cons_of_mem _ h))
        refine ⟨by simp [ihl], ?_⟩
        cases htr : (bisectGo f tol n (i + 1) a ((a + b) / 2)).2 with
        | nil =>
          intro last hlast
          simp only [List.getLast?_singleton, Option.mem_def, Option.some.injEq] at hlast
          subst hlast
          have hn : n = 0 := by rw [htr] at ihl; simpa using ihl.symm
          subst hn
          rw [bisectGo]
          simp [bisectNextRoot, hsign]
        | cons t ts =>
          intro last hlast
          rw [List.getLast?_cons_cons] at hlast
          exact ihr last (by rw [htr]; exact hlast)
      · rw [if_neg hsign] at hnc ⊢
        dsimp only at hnc ⊢
        obtain ⟨ihl, ihr⟩ := ih (i + 1) ((a + b) / 2) b
          (fun row h => hnc row (List.mem_cons_of_mem _ h))
        refine ⟨by simp [ihl], ?_⟩
        cases htr : (bisectGo f tol n (i + 1) ((a + b) / 2) b).2 with
        | nil =>
          intro last hlast
          simp only [List.getLast?_singleton, Option.mem_def, Option.some.injEq] at hlast
          subst hlast
          have hn : n = 0 := by rw [htr] at ihl; simpa using ihl.symm
          subst hn
          rw [bisectGo]
          simp [bisectNextRoot, hsign]
        | cons t ts =>
          intro last hlast
          rw [List.getLast?_cons_cons] at hlast
          exact ihr last (by rw [htr]; exact hlast)

/-- Secant exhaustion: a success with no converged row means the loop ran its
full fuel and returned the last row's `x_new` (`ZOF_CLI.py` line 104). -/
lemma secantGo_exhaust (f : ℚ → ℚ) (tol : ℚ) :
    ∀ (n i : ℕ) (x0 x1 r : ℚ) (tr : List SecantRec),
      secantGo f tol n i x0 x1 = .ok (r, tr) →
      (∀ row ∈ tr, ¬ row.error < tol) →
      tr.length = n ∧ (tr = [] → r = x1) ∧
        ∀ last ∈ tr.getLast?, r = last.x_new := by
  intro n
  induction n with
  | zero =>
    intro i x0 x1 r tr heq _
    rw [secantGo] at heq
    simp only [Except.ok.injEq, Prod.mk.injEq] at heq
    obtain ⟨hr, htr⟩ := heq
    subst hr
    subst htr
    simp
  | succ n ih =>
    intro i x0 x1 r tr heq hnc
    simp only [secantGo] at heq
    by_cases hden : f x1 - f x0 = 0
    · rw [if_pos hden] at heq
      exact absurd heq (by simp)
    · rw [if_neg hden] at heq
      by_cases hconv : |x1 - f x1 * (x1 - x0) / (f x1 - f x0) - x1| < tol
      · rw [if_pos hconv] at heq
        simp only [Except.ok.injEq, Prod.mk.injEq] at heq
        obtain ⟨hr, htr⟩ := heq
        subst hr
        subst htr
        exact absurd hconv (hnc _ (List.mem_singleton_self _))
      · rw [if_neg hconv] at heq
        cases hrec : secantGo f tol n (i + 1) x1
            (x1 - f x1 * (x1 - x0) / (f x1 - f x0)) with
        | error msg =>
          rw [hrec] at heq
          exact absurd heq (by simp)
        | ok p =>
          rw [hrec] at heq
          simp only [Except.ok.injEq, Prod.mk.injEq] at heq
          obtain ⟨hr, htr⟩ := heq
          subst hr
          subst htr
          obtain ⟨ihl, ihe, ihr⟩ := ih (i + 1) x1
            (x1 - f x1 * (x1 - x0) / (f x1 - f x0)) p.1 p.2 (by rw [hrec])
            (fun row h => hnc row (List.mem_cons_of_mem _ h))
          refine ⟨by simp [ihl], by simp, ?_⟩
          cases hp2 : p.2 with
          | nil =>
            intro last hlast
            simp only [List.getLast?_singleton, Option.mem_def,
              Option.some.injEq] at hlast
            subst hlast
            exact ihe hp2
          | cons t ts =>
            intro last hlast
            rw [List.getLast?_cons_cons] at hlast
            exact ihr last (by rw [hp2]; exact hlast)

/-- Newton-Raphson exhaustion: a success with no converged row means the loop
ran its full fuel and returned the last row's `x_next` (`ZOF_CLI.py` line 129). -/
lemma newtonGo_exhaust (f df : ℚ → ℚ) (tol : ℚ) :
    ∀ (n i : ℕ) (x r : ℚ) (tr : List NewtonRec),
      newtonGo f df tol n i x = .ok (r, tr) →
      (∀ row ∈ tr, ¬ row.error < tol) →
      tr.length = n ∧ (tr = [] → r = x) ∧
        ∀ last ∈ tr.getLast?, r = last.x_next := by
  intro n
  induction n with
  | zero =>
    intro i x r tr heq _
    rw [newtonGo] at heq
    simp only [Except.ok.injEq, Prod.mk.injEq] at heq
    obtain ⟨hr, htr⟩ := heq
    subst hr
    subst htr
    simp
  | succ n ih =>
    intro i x r tr heq hnc
    simp only [newtonGo] at heq
    by_cases hden : df x = 0
    · rw [if_pos hden] at heq
      exact absurd heq (by simp)
    · rw [if_neg hden] at heq
      by_cases hconv : |x - f x / df x - x| < tol
      · rw [if_pos hconv] at heq
        simp only [Except.ok.injEq, Prod.mk.injEq] at heq
        obtain ⟨hr, htr⟩ := heq
        subst hr
        subst htr
        exact absurd hconv (hnc _ (List.mem_singleton_self _))
      · rw [if_neg hconv] at heq
        cases hrec : newtonGo f df tol n (i + 1) (x - f x / df x) with
        | error msg =>
          rw [hrec] at heq
          exact absurd heq (by simp)
        | ok p =>
          rw [hrec] at heq
          simp only [Except.ok.injEq, Prod.mk.injEq] at heq
          obtain ⟨hr, htr⟩ := heq
          subst hr
          subst htr
          obtain ⟨ihl, ihe, ihr⟩ := ih (i + 1) (x - f x / df x) p.1 p.2
            (by rw [hrec]) (fun row h => hnc row (List.mem_cons_of_mem _ h))
          refine ⟨by simp [ihl], by simp, ?_⟩
          cases hp2 : p.2 with
          | nil =>
            intro last hlast
            simp only [List.getLast?_singleton, Option.mem_def,
              Option.some.injEq] at hlast
            subst hlast
            exact ihe hp2
          | cons t ts =>
            intro last hlast
            rw [List.getLast?_cons_cons] at hlast
            exact ihr last (by rw [hp2]; exact hlast)

/-- Fixed-point exhaustion: a success (which already excludes the divergence
escape) with no converged row means the loop ran its full fuel and returned
the last row's `g_x` (`ZOF_CLI.py` line 153). -/
lemma fixedGo_exhaust (g : ℚ → ℚ) (tol : ℚ) :
    ∀ (n i : ℕ) (x r : ℚ) (tr : List FixedRec),
      fixedGo g tol n i x = .ok (r, tr) →
      (∀ row ∈ tr, ¬ row.error < tol) →
      tr.length = n ∧ (tr = [] → r = x) ∧
        ∀ last ∈ tr.getLast?, r = last.g_x := by
  intro n
  induction n with
  | zero =>
    intro i x r tr heq _
    rw [fixedGo] at heq
    simp only [Except.ok.injEq, Prod.mk.injEq] at heq
    obtain ⟨hr, htr⟩ := heq
    subst hr
    subst htr
    simp
  | succ n ih =>
    intro i x r tr heq hnc
    simp only [fixedGo] at heq
    by_cases hconv : |g x - x| < tol
    · rw [if_pos hconv] at heq
      simp only [Except.ok.injEq, Prod.mk.injEq] at heq
      obtain ⟨hr, htr⟩ := heq
      subst hr
      subst htr
      exact absurd hconv (hnc _ (List.mem_singleton_self _))
    · rw [if_neg hconv] at heq
      by_cases hdiv : |g x - x| > 10 ^ 10
      · rw [if_pos hdiv] at heq
        exact absurd heq (by simp)
      · rw [if_neg hdiv] at heq
        cases hrec : fixedGo g tol n (i + 1) (g x) with
        | error msg =>
          rw [hrec] at heq
          exact absurd heq (by simp)
        | ok p =>
          rw [hrec] at heq
          simp only [Except.ok.injEq, Prod.mk.injEq] at heq
          obtain ⟨hr, htr⟩ := heq
          subst hr
          subst htr
          obtain ⟨ihl, ihe, ihr⟩ := ih (i + 1) (g x) p.1 p.2 (by rw [hrec])
            (fun row h => hnc row (List.mem_cons_of_mem _ h))
          refine ⟨by simp [ihl], by simp, ?_⟩
          cases hp2 : p.2 with
          | nil =>
            intro last hlast
            simp only [List.getLast?_singleton, Option.mem_def,
              Option.some.injEq] at hlast
            subst hlast
            exact ihe hp2
          | cons t ts =>
            intro last hlast
            rw [List.getLast?_cons_cons] at hlast
            exact ihr last (by rw [hp2]; exact hlast)

/-- Modified-secant exhaustion: a success with no converged row means the loop
ran its full fuel and returned the last row's `x_next` (`ZOF_CLI.py` line 182). -/
lemma modSecGo_exhaust (f : ℚ → ℚ) (delta tol : ℚ) :
    ∀ (n i : ℕ) (x r : ℚ) (tr : List ModSecRec),
      modSecGo f delta tol n i x = .ok (r, tr) →
      (∀ row ∈ tr, ¬ row.error < tol) →
      tr.length = n ∧ (tr = [] → r = x) ∧
        ∀ last ∈ tr.getLast?, r = last.x_next := by
  intro n
  induction n with
  | zero =>
    intro i x r tr heq _
    rw [modSecGo] at heq
    simp only [Except.ok.injEq, Prod.mk.injEq] at heq
    obtain ⟨hr, htr⟩ := heq
    subst hr
    subst htr
    simp
  | succ n ih =>
    intro i x r tr heq hnc
    simp only [modSecGo] at heq
    by_cases hden : f (x + delta) - f x = 0
    · rw [if_pos hden] at heq
      exact absurd heq (by simp)
    · rw [if_neg hden] at heq
      by_cases hconv : |x - delta * f x / (f (x + delta) - f x) - x| < tol
      · rw [if_pos hconv] at heq
        simp only [Except.ok.injEq, Prod.mk.injEq] at heq
        obtain ⟨hr, htr⟩ := heq
        subst hr
        subst htr
        exact absurd hconv (hnc _ (List.mem_singleton_self _))
      · rw [if_neg hconv] at heq
        cases hrec : modSecGo f delta tol n (i + 1)
            (x - delta * f x / (f (x + delta) - f x)) with
        | error msg =>
          rw [hrec] at heq
          exact absurd heq (by simp)
        | ok p =>
          rw [hrec] at heq
          simp only [Except.ok.injEq, Prod.mk.injEq] at heq
          obtain ⟨hr, htr⟩ := heq
          subst hr
          subst htr
          obtain ⟨ihl, ihe, ihr⟩ := ih (i + 1)
            (x - delta * f x / (f (x + delta) - f x)) p.1 p.2 (by rw [hrec])
            (fun row h => hnc row (List.mem_cons_of_mem _ h))
          refine ⟨by simp [ihl], by simp, ?_⟩
          cases hp2 : p.2 with
          | nil =>
            intro last hlast
            simp only [List.getLast?_singleton, Option.mem_def,
              Option.some.injEq] at hlast
            subst hlast
            exact ihe hp2
          | cons t ts =>
            intro last hlast
            rw [List.getLast?_cons_cons] at hlast
            exact ihr last (by rw [hp2]; exact hlast)

/-- Regula-falsi exhaustion: a success with no converged row means the loop
ran its full fuel; the returned root is the previous `c` when the trace is
empty, and the last row's `c` otherwise (`ZOF_CLI.py` line 80). -/
lemma regulaGo_exhaust (f : ℚ → ℚ) (tol : ℚ) :
    ∀ (n i : ℕ) (a b : ℚ) (lastc : Option ℚ) (ro : Option ℚ)
      (tr : List RegulaRec),
      regulaGo f tol n i a b lastc = .ok (ro, tr) →
      (∀ row ∈ tr, ¬ |row.f_c| < tol) →
      tr.length = n ∧ (tr = [] → ro = lastc) ∧
        ∀ last ∈ tr.getLast?, ro = some last.c := by
  intro n
  induction n with
  | zero =>
    intro i a b lastc ro tr heq _
    rw [regulaGo] at heq
    simp only [Except.ok.injEq, Prod.mk.injEq] at heq
    obtain ⟨hr, htr⟩ := heq
    subst hr
    subst htr
    simp
  | succ n ih =>
    intro i a b lastc ro tr heq hnc
    simp only [regulaGo] at heq
    by_cases hden : f b - f a = 0
    · rw [if_pos hden] at heq
      exact absurd heq (by simp)
    · rw [if_neg hden] at heq
      by_cases hconv : |f ((a * f b - b * f a) / (f b - f a))| < tol
      · rw [if_pos hconv] at heq
        simp only [Except.ok.injEq, Prod.mk.injEq] at heq
        obtain ⟨hr, htr⟩ := heq
        subst hr
        subst htr
        have h := hnc ⟨i, a, b, (a * f b - b * f a) / (f b - f a),
            f ((a * f b - b * f a) / (f b - f a)),
            |f ((a * f b - b * f a) / (f b - f a))|⟩ (List.mem_singleton_self _)
        exact absurd hconv h
      · rw [if_neg hconv] at heq
        by_cases hsign : f a * f ((a * f b - b * f a) / (f b - f a)) < 0
        · rw [if_pos hsign] at heq
          cases hrec : regulaGo f tol n (i + 1) a
              ((a * f b - b * f a) / (f b - f a))
              (some ((a * f b - b * f a) / (f b - f a))) with
          | error msg =>
            rw [hrec] at heq
            exact absurd heq (by simp)
          | ok p =>
            rw [hrec] at heq
            simp only [Except.ok.injEq, Prod.mk.injEq] at heq
            obtain ⟨hr, htr⟩ := heq
            subst hr
            subst htr
            obtain ⟨ihl, ihe, ihr⟩ := ih (i + 1) a
              ((a * f b - b * f a) / (f b - f a))
              (some ((a * f b - b * f a) / (f b - f a))) p.1 p.2 (by rw [hrec])
              (fun row h => hnc row (List.mem_cons_of_mem _ h))
            refine ⟨by simp [ihl], by simp, ?_⟩
            cases hp2 : p.2 with
            | nil =>
              intro last hlast
              simp only [List.getLast?_singleton, Option.mem_def,
                Option.some.injEq] at hlast
              subst hlast
              exact ihe hp2
            | cons t ts =>
              intro last hlast
              rw [List.getLast?_cons_cons] at hlast
              exact ihr last (by rw [hp2]; exact hlast)
        · rw [if_neg hsign] at heq
          cases hrec : regulaGo f tol n (i + 1)
              ((a * f b - b * f a) / (f b - f a)) b
              (some ((a * f b - b * f a) / (f b - f a))) with
          | error msg =>
            rw [hrec] at heq
            exact absurd heq (by simp)
          | ok p =>
            rw [hrec] at heq
            simp only [Except.ok.injEq, Prod.mk.injEq] at heq
            obtain ⟨hr, htr⟩ := heq
            subst hr
            subst htr
            obtain ⟨ihl, ihe, ihr⟩ := ih (i + 1)
              ((a * f b - b * f a) / (f b - f a)) b
              (some ((a * f b - b * f a) / (f b - f a))) p.1 p.2 (by rw [hrec])
              (fun row h => hnc row (List.mem_cons_of_mem _ h))
            refine ⟨by simp [ihl], by simp, ?_⟩
            cases hp2 : p.2 with
            | nil =>
              intro last hlast
              simp only [List.getLast?_singleton, Option.mem_def,
                Option.some.injEq] at hlast
              subst hlast
              exact ihe hp2
            | cons t ts =>
              intro last hlast
              rw [List.getLast?_cons_cons] at hlast
              exact ihr last (by rw [hp2]; exact hlast)

/-! ## Success lemmas (claim C3): every success either ran the full fuel or
its last row satisfies the convergence predicate -/

/-- Every bisection run either uses its whole fuel or has a last row
satisfying line 42's predicate `|f(c)| < tol or |b-a| < tol`. -/
lemma bisectGo_success (f : ℚ → ℚ) (tol : ℚ) :
    ∀ (n i : ℕ) (a b : ℚ),
      (bisectGo f tol n i a b).2.length = n ∨
      ∃ last ∈ (bisectGo f tol n i a b).2.getLast?,
        |last.f_mid| < tol ∨ last.error < tol := by
  intro n
  induction n with
  | zero =>
    intro i a b
    simp [bisectGo]
  | succ n ih =>
    intro i a b
    simp only [bisectGo]
    by_cases hconv : |f ((a + b) / 2)| < tol ∨ |b - a| < tol
    · rw [if_pos hconv]
      exact Or.inr ⟨_, rfl, hconv⟩
    · rw [if_neg hconv]
      by_cases hsign : f a * f ((a + b) / 2) < 0
      · rw [if_pos hsign]
        dsimp only
        rcases ih (i + 1) a ((a + b) / 2) with ihl | ⟨last, hmem, hlast⟩
        · exact Or.inl (by simp [ihl])
        · refine Or.inr ⟨last, ?_, hlast⟩
          cases htr : (bisectGo f tol n (i + 1) a ((a + b) / 2)).2 with
          | nil => rw [htr] at hmem; simp at hmem
          | cons t ts =>
            rw [List.getLast?_cons_cons]
            rw [htr] at hmem
            exact hmem
      · rw [if_neg hsign]
        dsimp only
        rcases ih (i + 1) ((a + b) / 2) b with ihl | ⟨last, hmem, hlast⟩
        · exact Or.inl (by simp [ihl])
        · refine Or.inr ⟨last, ?_, hlast⟩
          cases htr : (bisectGo f tol n (i + 1) ((a + b) / 2) b).2 with
          | nil => rw [htr] at hmem; simp at hmem
          | cons t ts =>
            rw [List.getLast?_cons_cons]
            rw [htr] at hmem
            exact hmem

/-- Every secant success either uses its whole fuel or has a last row with
`error < tol` (`ZOF_CLI.py` line 98). -/
lemma secantGo_success (f : ℚ → ℚ) (tol : ℚ) :
    ∀ (n i : ℕ) (x0 x1 r : ℚ) (tr : List SecantRec),
      secantGo f tol n i x0 x1 = .ok (r, tr) →
      tr.length = n ∨ ∃ last ∈ tr.getLast?, last.error < tol := by
  intro n
  induction n with
  | zero =>
    intro i x0 x1 r tr heq
    rw [secantGo] at heq
    simp only [Except.ok.injEq, Prod.mk.injEq] at heq
    obtain ⟨-, htr⟩ := heq
    subst htr
    simp
  | succ n ih =>
    intro i x0 x1 r tr heq
    simp only [secantGo] at heq
    by_cases hden : f x1 - f x0 = 0
    · rw [if_pos hden] at heq
      exact absurd heq (by simp)
    · rw [if_neg hden] at heq
      by_cases hconv : |x1 - f x1 * (x1 - x0) / (f x1 - f x0) - x1| < tol
      · rw [if_pos hconv] at heq
        simp only [Except.ok.injEq, Prod.mk.injEq] at heq
        obtain ⟨-, htr⟩ := heq
        subst htr
        exact Or.inr ⟨_, rfl, hconv⟩
      · rw [if_neg hconv] at heq
        cases hrec : secantGo f tol n (i + 1) x1
            (x1 - f x1 * (x1 - x0) / (f x1 - f x0)) with
        | error msg =>
          rw [hrec] at heq
          exact absurd heq (by simp)
        | ok p =>
          rw [hrec] at heq
          simp only [Except.ok.injEq, Prod.mk.injEq] at heq
          obtain ⟨-, htr⟩ := heq
          subst htr
          rcases ih (i + 1) x1 (x1 - f x1 * (x1 - x0) / (f x1 - f x0))
              p.1 p.2 (by rw [hrec]) with ihl | ⟨last, hmem, hlast⟩
          · exact Or.inl (by simp [ihl])
          · refine Or.inr ⟨last, ?_, hlast⟩
            cases hp2 : p.2 with
            | nil => rw [hp2] at hmem; simp at hmem
            | cons t ts =>
              rw [List.getLast?_cons_cons]
              rw [hp2] at hmem
              exact hmem

/-- Every Newton-Raphson success either uses its whole fuel or has a last row
with `error < tol` (`ZOF_CLI.py` line 124). -/
lemma newtonGo_success (f df : ℚ → ℚ) (tol : ℚ) :
    ∀ (n i : ℕ) (x r : ℚ) (tr : List NewtonRec),
      newtonGo f df tol n i x = .ok (r, tr) →
      tr.length = n ∨ ∃ last ∈ tr.getLast?, last.error < tol := by
  intro n
  induction n with
  | zero =>
    intro i x r tr heq
    rw [newtonGo] at heq
    simp only [Except.ok.injEq, Prod.mk.injEq] at heq
    obtain ⟨-, htr⟩ := heq
    subst htr
    simp
  | succ n ih =>
    intro i x r tr heq
    simp only [newtonGo] at heq
    by_cases hden : df x = 0
    · rw [if_pos hden] at heq
      exact absurd heq (by simp)
    · rw [if_neg hden] at heq
      by_cases hconv : |x - f x / df x - x| < tol
      · rw [if_pos hconv] at heq
        simp only [Except.ok.injEq, Prod.mk.injEq] at heq
        obtain ⟨-, htr⟩ := heq
        subst htr
        exact Or.inr ⟨_, rfl, hconv⟩
      · rw [if_neg hconv] at heq
        cases hrec : newtonGo f df tol n (i + 1) (x - f x / df x) with
        | error msg =>
          rw [hrec] at heq
          exact absurd heq (by simp)
        | ok p =>
          rw [hrec] at heq
          simp only [Except.ok.injEq, Prod.mk.injEq] at heq
          obtain ⟨-, htr⟩ := heq
          subst htr
          rcases ih (i + 1) (x - f x / df x) p.1 p.2 (by rw [hrec]) with
            ihl | ⟨last, hmem, hlast⟩
          · exact Or.inl (by simp [ihl])
          · refine Or.inr ⟨last, ?_, hlast⟩
            cases hp2 : p.2 with
            | nil => rw [hp2] at hmem; simp at hmem
            | cons t ts =>
              rw [List.getLast?_cons_cons]
              rw [hp2] at hmem
              exact hmem

/-- Every fixed-point success either uses its whole fuel or has a last row
with `error < tol` (`ZOF_CLI.py` line 144). -/
lemma fixedGo_success (g : ℚ → ℚ) (tol : ℚ) :
    ∀ (n i : ℕ) (x r : ℚ) (tr : List FixedRec),
      fixedGo g tol n i x = .ok (r, tr) →
      tr.length = n ∨ ∃ last ∈ tr.getLast?, last.error < tol := by
  intro n
  induction n with
  | zero =>
    intro i x r tr heq
    rw [fixedGo] at heq
    simp only [Except.ok.injEq, Prod.mk.injEq] at heq
    obtain ⟨-, htr⟩ := heq
    subst htr
    simp
  | succ n ih =>
    intro i x r tr heq
    simp only [fixedGo] at heq
    by_cases hconv : |g x - x| < tol
    · rw [if_pos hconv] at heq
      simp only [Except.ok.injEq, Prod.mk.injEq] at heq
      obtain ⟨-, htr⟩ := heq
      subst htr
      exact Or.inr ⟨_, rfl, hconv⟩
    · rw [if_neg hconv] at heq
      by_cases hdiv : |g x - x| > 10 ^ 10
      · rw [if_pos hdiv] at heq
        exact absurd heq (by simp)
      · rw [if_neg hdiv] at heq
        cases hrec : fixedGo g tol n (i + 1) (g x) with
        | error msg =>
          rw [hrec] at heq
          exact absurd heq (by simp)
        | ok p =>
          rw [hrec] at heq
          simp only [Except.ok.injEq, Prod.mk.injEq] at heq
          obtain ⟨-, htr⟩ := heq
          subst htr
          rcases ih (i + 1) (g x) p.1 p.2 (by rw [hrec]) with
            ihl | ⟨last, hmem, hlast⟩
          · exact Or.inl (by simp [ihl])
          · refine Or.inr ⟨last, ?_, hlast⟩
            cases hp2 : p.2 with
            | nil => rw [hp2] at hmem; simp at hmem
            | cons t ts =>
              rw [List.getLast?_cons_cons]
              rw [hp2] at hmem
              exact hmem

/-- Every modified-secant success either uses its whole fuel or has a last
row with `error < tol` (`ZOF_CLI.py` line 177). -/
lemma modSecGo_success (f : ℚ → ℚ) (delta tol : ℚ) :
    ∀ (n i : ℕ) (x r : ℚ) (tr : List ModSecRec),
      modSecGo f delta tol n i x = .ok (r, tr) →
      tr.length = n ∨ ∃ last ∈ tr.getLast?, last.error < tol := by
  intro n
  induction n with
  | zero =>
    intro i x r tr heq
    rw [modSecGo] at heq
    simp only [Except.ok.injEq, Prod.mk.injEq] at heq
    obtain ⟨-, htr⟩ := heq
    subst htr
    simp
  | succ n ih =>
    intro i x r tr heq
    simp only [modSecGo] at heq
    by_cases hden : f (x + delta) - f x = 0
    · rw [if_pos hden] at heq
      exact absurd heq (by simp)
    · rw [if_neg hden] at heq
      by_cases hconv : |x - delta * f x / (f (x + delta) - f x) - x| < tol
      · rw [if_pos hconv] at heq
        simp only [Except.ok.injEq, Prod.mk.injEq] at heq
        obtain ⟨-, htr⟩ := heq
        subst htr
        exact Or.inr ⟨_, rfl, hconv⟩
      · rw [if_neg hconv] at heq
        cases hrec : modSecGo f delta tol n (i + 1)
            (x - delta * f x / (f (x + delta) - f x)) with
        | error msg =>
          rw [hrec] at heq
          exact absurd heq (by simp)
        | ok p =>
          rw [hrec] at heq
          simp only [Except.ok.injEq, Prod.mk.injEq] at heq
          obtain ⟨-, htr⟩ := heq
          subst htr
          rcases ih (i + 1) (x - delta * f x / (f (x + delta) - f x))
              p.1 p.2 (by rw [hrec]) with ihl | ⟨last, hmem, hlast⟩
          · exact Or.inl (by simp [ihl])
          · refine Or.inr ⟨last, ?_, hlast⟩
            cases hp2 : p.2 with
            | nil => rw [hp2] at hmem; simp at hmem
            | cons t ts =>
              rw [List.getLast?_cons_cons]
              rw [hp2] at hmem
              exact hmem

/-- Every regula-falsi success either uses its whole fuel or has a last row
with `error < tol` (`ZOF_CLI.py` line 73; the recorded error is `|f(c)|`,
the same quantity the convergence test uses). -/
lemma regulaGo_success (f : ℚ → ℚ) (tol : ℚ) :
    ∀ (n i : ℕ) (a b : ℚ) (lastc ro : Option ℚ) (tr : List RegulaRec),
      regulaGo f tol n i a b lastc = .ok (ro, tr) →
      tr.length = n ∨ ∃ last ∈ tr.getLast?, last.error < tol := by
  intro n
  induction n with
  | zero =>
    intro i a b lastc ro tr heq
    rw [regulaGo] at heq
    simp only [Except.ok.injEq, Prod.mk.injEq] at heq
    obtain ⟨-, htr⟩ := heq
    subst htr
    simp
  | succ n ih =>
    intro i a b lastc ro tr heq
    simp only [regulaGo] at heq
    by_cases hden : f b - f a = 0
    · rw [if_pos hden] at heq
      exact absurd heq (by simp)
    · rw [if_neg hden] at heq
      by_cases hconv : |f ((a * f b - b * f a) / (f b - f a))| < tol
      · rw [if_pos hconv] at heq
        simp only [Except.ok.injEq, Prod.mk.injEq] at heq
        obtain ⟨-, htr⟩ := heq
        subst htr
        exact Or.inr ⟨_, rfl, hconv⟩
      · rw [if_neg hconv] at heq
        by_cases hsign : f a * f ((a * f b - b * f a) / (f b - f a)) < 0
        · rw [if_pos hsign] at heq
          cases hrec : regulaGo f tol n (i + 1) a
              ((a * f b - b * f a) / (f b - f a))
              (some ((a * f b - b * f a) / (f b - f a))) with
          | error msg =>
            rw [hrec] at heq
            exact absurd heq (by simp)
          | ok p =>
            rw [hrec] at heq
            simp only [Except.ok.injEq, Prod.mk.injEq] at heq
            obtain ⟨-, htr⟩ := heq
            subst htr
            rcases ih (i + 1) a ((a * f b - b * f a) / (f b - f a))
                (some ((a * f b - b * f a) / (f b - f a))) p.1 p.2
                (by rw [hrec]) with ihl | ⟨last, hmem, hlast⟩
            · exact Or.inl (by simp [ihl])
            · refine Or.inr ⟨last, ?_, hlast⟩
              cases hp2 : p.2 with
              | nil => rw [hp2] at hmem; simp at hmem
              | cons t ts =>
                rw [List.getLast?_cons_cons]
                rw [hp2] at hmem
                exact hmem
        · rw [if_neg hsign] at heq
          cases hrec : regulaGo f tol n (i + 1)
              ((a * f b - b * f a) / (f b - f a)) b
              (some ((a * f b - b * f a) / (f b - f a))) with
          | error msg =>
            rw [hrec] at heq
            exact absurd heq (by simp)
          | ok p =>
            rw [hrec] at heq
            simp only [Except.ok.injEq, Prod.mk.injEq] at heq
            obtain ⟨-, htr⟩ := heq
            subst htr
            rcases ih (i + 1) ((a * f b - b * f a) / (f b - f a)) b
                (some ((a * f b - b * f a) / (f b - f a))) p.1 p.2
                (by rw [hrec]) with ihl | ⟨last, hmem, hlast⟩
            · exact Or.inl (by simp [ihl])
            · refine Or.inr ⟨last, ?_, hlast⟩
              cases hp2 : p.2 with
              | nil => rw [hp2] at hmem; simp at hmem
              | cons t ts =>
                rw [List.getLast?_cons_cons]
                rw [hp2] at hmem
                exact hmem

/-! ## Bracketing lemmas (claims C4, C6, C10) -/

/-- Under a strict sign change, the regula-falsi update point
`c = (a*f(b) - b*f(a)) / (f(b) - f(a))` lies strictly between `a` and `b`. -/
lemma falsi_between (f : ℚ → ℚ) (a b : ℚ) (h : f a * f b < 0) :
    min a b < (a * f b - b * f a) / (f b - f a) ∧
    (a * f b - b * f a) / (f b - f a) < max a b := by
  have hab : a ≠ b := by
    rintro rfl
    nlinarith [mul_self_nonneg (f a)]
  have hfd : f b - f a ≠ 0 := by
    intro h0
    have hfb : f b = f a := by linarith
    rw [hfb] at h
    nlinarith [mul_self_nonneg (f a)]
  set c := (a * f b - b * f a) / (f b - f a) with hc
  have key : (c - a) * (c - b) < 0 := by
    have hca : c - a = f a * (a - b) / (f b - f a) := by
      rw [hc]
      field_simp
      ring
    have hcb : c - b = f b * (a - b) / (f b - f a) := by
      rw [hc]
      field_simp
      ring
    rw [hca, hcb, div_mul_div_comm]
    apply div_neg_of_neg_of_pos
    · have hprod : f a * (a - b) * (f b * (a - b)) =
          f a * f b * ((a - b) * (a - b)) := by ring
      rw [hprod]
      exact mul_neg_of_neg_of_pos h (mul_self_pos.mpr (sub_ne_zero.mpr hab))
    · exact mul_self_pos.mpr hfd
  rcases mul_neg_iff.mp key with ⟨h1, h2⟩ | ⟨h1, h2⟩
  · exact ⟨lt_of_le_of_lt (min_le_left a b) (by linarith),
      lt_of_lt_of_le (by linarith) (le_max_right a b)⟩
  · exact ⟨lt_of_le_of_lt (min_le_right a b) (by linarith),
      lt_of_lt_of_le (by linarith) (le_max_left a b)⟩

/-- Sign propagation for the `else` branch of the shared bracket update: if
the bracket had a strict sign change, the new value is not yet converged, and
`f(a) * f(c) < 0` fails, then the kept bracket `(c, b)` has a strict sign
change as well. -/
lemma regula_sign_else {fa fb fc tol : ℚ} (h : fa * fb < 0) (htol : 0 < tol)
    (hfc : ¬ |fc| < tol) (hsign : ¬ fa * fc < 0) : fc * fb < 0 := by
  have hfc0 : fc ≠ 0 := by
    rintro rfl
    simp only [abs_zero] at hfc
    exact hfc htol
  have hfa0 : fa ≠ 0 := by
    rintro rfl
    simp at h
  have hfafc : 0 < fa * fc :=
    lt_of_le_of_ne (not_lt.mp hsign) (Ne.symm (mul_ne_zero hfa0 hfc0))
  have h2 : fa * fc * (fa * fb) < 0 := mul_neg_of_pos_of_neg hfafc h
  nlinarith [mul_self_pos.mpr hfa0]

/-- Bisection invariant: starting from a bracket inside `[lo, hi]`, the
returned root stays in `[lo, hi]`, the recorded bracket widths are
non-increasing along the trace, and the first row carries the initial
bracket. -/
lemma bisectGo_inv (f : ℚ → ℚ) (tol lo hi : ℚ) :
    ∀ (n i : ℕ) (a b : ℚ), lo ≤ a → a ≤ hi → lo ≤ b → b ≤ hi →
      (lo ≤ (bisectGo f tol n i a b).1 ∧ (bisectGo f tol n i a b).1 ≤ hi) ∧
      List.Chain' (fun r s => bisectWidth s ≤ bisectWidth r)
        (bisectGo f tol n i a b).2 ∧
      ∀ hd ∈ (bisectGo f tol n i a b).2.head?, hd.a = a ∧ hd.b = b := by
  intro n
  induction n with
  | zero =>
    intro i a b ha1 ha2 hb1 hb2
    simp only [bisectGo]
    exact ⟨⟨by linarith, by linarith⟩, by simp, by simp⟩
  | succ n ih =>
    intro i a b ha1 ha2 hb1 hb2
    simp only [bisectGo]
    by_cases hconv : |f ((a + b) / 2)| < tol ∨ |b - a| < tol
    · rw [if_pos hconv]
      dsimp only
      refine ⟨⟨by linarith, by linarith⟩, List.chain'_singleton _, ?_⟩
      intro hd hmem
      simp only [List.head?_cons, Option.mem_def, Option.some.injEq] at hmem
      subst hmem
      exact ⟨rfl, rfl⟩
    · rw [if_neg hconv]
      by_cases hsign : f a * f ((a + b) / 2) < 0
      · rw [if_pos hsign]
        dsimp only
        obtain ⟨hroot, hch, hhd⟩ := ih (i + 1) a ((a + b) / 2) ha1 ha2
          (by linarith) (by linarith)
        refine ⟨hroot, ?_, ?_⟩
        · rw [List.chain'_cons']
          refine ⟨?_, hch⟩
          intro hd hmem
          obtain ⟨hda, hdb⟩ := hhd hd hmem
          simp only [bisectWidth, hda, hdb]
          rw [abs_mid_sub_left]
          have habs : (0:ℚ) ≤ |b - a| := abs_nonneg _
          linarith
        · intro hd hmem
          simp only [List.head?_cons, Option.mem_def, Option.some.injEq] at hmem
          subst hmem
          exact ⟨rfl, rfl⟩
      · rw [if_neg hsign]
        dsimp only
        obtain ⟨hroot, hch, hhd⟩ := ih (i + 1) ((a + b) / 2) b
          (by linarith) (by linarith) hb1 hb2
        refine ⟨hroot, ?_, ?_⟩
        · rw [List.chain'_cons']
          refine ⟨?_, hch⟩
          intro hd hmem
          obtain ⟨hda, hdb⟩ := hhd hd hmem
          simp only [bisectWidth, hda, hdb]
          rw [abs_sub_mid_right]
          have habs : (0:ℚ) ≤ |b - a| := abs_nonneg _
          linarith
        · intro hd hmem
          simp only [List.head?_cons, Option.mem_def, Option.some.injEq] at hmem
          subst hmem
          exact ⟨rfl, rfl⟩

/-- Regula-falsi invariant: under the strict sign change maintained by the
update rule (with `tol > 0`), the returned root stays inside `[lo, hi]`, the
recorded bracket widths are non-increasing, and the first row carries the
initial bracket. -/
lemma regulaGo_inv (f : ℚ → ℚ) (tol lo hi : ℚ) (htol : 0 < tol) :
    ∀ (n i : ℕ) (a b : ℚ) (lastc : Option ℚ),
      f a * f b < 0 → lo ≤ a → a ≤ hi → lo ≤ b → b ≤ hi →
      (∀ x, lastc = some x → lo ≤ x ∧ x ≤ hi) →
      ∀ (ro : Option ℚ) (tr : List RegulaRec),
        regulaGo f tol n i a b lastc = .ok (ro, tr) →
        (∀ x, ro = some x → lo ≤ x ∧ x ≤ hi) ∧
        List.Chain' (fun r s => regulaWidth s ≤ regulaWidth r) tr ∧
        ∀ hd ∈ tr.head?, hd.a = a ∧ hd.b = b := by
  intro n
  induction n with
  | zero =>
    intro i a b lastc hab ha1 ha2 hb1 hb2 hlast ro tr heq
    rw [regulaGo] at heq
    simp only [Except.ok.injEq, Prod.mk.injEq] at heq
    obtain ⟨hr, htr⟩ := heq
    subst hr
    subst htr
    exact ⟨hlast, by simp, by simp⟩
  | succ n ih =>
    intro i a b lastc hab ha1 ha2 hb1 hb2 hlast ro tr heq
    have hbet := falsi_between f a b hab
    have hcx1 : lo ≤ (a * f b - b * f a) / (f b - f a) :=
      le_of_lt (lt_of_le_of_lt (le_min ha1 hb1) hbet.1)
    have hcx2 : (a * f b - b * f a) / (f b - f a) ≤ hi :=
      le_of_lt (lt_of_lt_of_le hbet.2 (max_le ha2 hb2))
    have hwid : ∀ x y : ℚ, lo ≤ x → x ≤ hi → lo ≤ y → y ≤ hi →
        min a b ≤ x → x ≤ max a b → min a b ≤ y → y ≤ max a b →
        |x - y| ≤ |b - a| := by
      intro x y _ _ _ _ hx1 hx2 hy1 hy2
      have h1 : |x - y| ≤ max a b - min a b := abs_sub_le_width hx1 hx2 hy1 hy2
      rw [max_sub_min_abs] at h1
      exact h1
    simp only [regulaGo] at heq
    by_cases hden : f b - f a = 0
    · rw [if_pos hden] at heq
      exact absurd heq (by simp)
    · rw [if_neg hden] at heq
      by_cases hconv : |f ((a * f b - b * f a) / (f b - f a))| < tol
      · rw [if_pos hconv] at heq
        simp only [Except.ok.injEq, Prod.mk.injEq] at heq
        obtain ⟨hr, htr⟩ := heq
        subst hr
        subst htr
        refine ⟨?_, List.chain'_singleton _, ?_⟩
        · intro x hx
          simp only [Option.some.injEq] at hx
          subst hx
          exact ⟨hcx1, hcx2⟩
        · intro hd hmem
          simp only [List.head?_cons, Option.mem_def, Option.some.injEq] at hmem
          subst hmem
          exact ⟨rfl, rfl⟩
      · rw [if_neg hconv] at heq
        by_cases hsign : f a * f ((a * f b - b * f a) / (f b - f a)) < 0
        · rw [if_pos hsign] at heq
          cases hrec : regulaGo f tol n (i + 1) a
              ((a * f b - b * f a) / (f b - f a))
              (some ((a * f b - b * f a) / (f b - f a))) with
          | error msg =>
            rw [hrec] at heq
            exact absurd heq (by simp)
          | ok p =>
            rw [hrec] at heq
            simp only [Except.ok.injEq, Prod.mk.injEq] at heq
            obtain ⟨hr, htr⟩ := heq
            subst hr
            subst htr
            obtain ⟨hroot, hch, hhd⟩ := ih (i + 1) a
              ((a * f b - b * f a) / (f b - f a))
              (some ((a * f b - b * f a) / (f b - f a))) hsign ha1 ha2 hcx1 hcx2
              (by intro x hx; simp only [Option.some.injEq] at hx; subst hx;
                  exact ⟨hcx1, hcx2⟩)
              p.1 p.2 (by rw [hrec])
            refine ⟨hroot, ?_, ?_⟩
            · rw [List.chain'_cons']
              refine ⟨?_, hch⟩
              intro hd hmem
              obtain ⟨hda, hdb⟩ := hhd hd hmem
              simp only [regulaWidth, hda, hdb]
              exact hwid _ _ hcx1 hcx2 ha1 ha2 (le_of_lt hbet.1)
                (le_of_lt hbet.2) (min_le_left a b) (le_max_left a b)
            · intro hd hmem
              simp only [List.head?_cons, Option.mem_def, Option.some.injEq] at hmem
              subst hmem
              exact ⟨rfl, rfl⟩
        · rw [if_neg hsign] at heq
          have hsign2 : f ((a * f b - b * f a) / (f b - f a)) * f b < 0 :=
            regula_sign_else hab htol hconv hsign
          cases hrec : regulaGo f tol n (i + 1)
              ((a * f b - b * f a) / (f b - f a)) b
              (some ((a * f b - b * f a) / (f b - f a))) with
          | error msg =>
            rw [hrec] at heq
            exact absurd heq (by simp)
          | ok p =>
            rw [hrec] at heq
            simp only [Except.ok.injEq, Prod.mk.injEq] at heq
            obtain ⟨hr, htr⟩ := heq
            subst hr
            subst htr
            obtain ⟨hroot, hch, hhd⟩ := ih (i + 1)
              ((a * f b - b * f a) / (f b - f a)) b
              (some ((a * f b - b * f a) / (f b - f a))) hsign2 hcx1 hcx2 hb1 hb2
              (by intro x hx; simp only [Option.some.injEq] at hx; subst hx;
                  exact ⟨hcx1, hcx2⟩)
              p.1 p.2 (by rw [hrec])
            refine ⟨hroot, ?_, ?_⟩
            · rw [List.chain'_cons']
              refine ⟨?_, hch⟩
              intro hd hmem
              obtain ⟨hda, hdb⟩ := hhd hd hmem
              simp only [regulaWidth, hda, hdb]
              exact hwid _ _ hb1 hb2 hcx1 hcx2 (min_le_right a b)
                (le_max_right a b) (le_of_lt hbet.1) (le_of_lt hbet.2)
            · intro hd hmem
              simp only [List.head?_cons, Option.mem_def, Option.some.injEq] at hmem
              subst hmem
              exact ⟨rfl, rfl⟩

/-- Consecutive bisection rows are related by the lines 45-48 update rule:
`b := c` when `f(a)·f(c) < 0`, otherwise (ties included) `a := c`. -/
lemma bisectGo_stepChain (f : ℚ → ℚ) (tol : ℚ) :
    ∀ (n i : ℕ) (a b : ℚ),
      List.Chain' (bisectStepRel f) (bisectGo f tol n i a b).2 ∧
      ∀ hd ∈ (bisectGo f tol n i a b).2.head?, hd.a = a ∧ hd.b = b := by
  intro n
  induction n with
  | zero =>
    intro i a b
    simp [bisectGo]
  | succ n ih =>
    intro i a b
    simp only [bisectGo]
    by_cases hconv : |f ((a + b) / 2)| < tol ∨ |b - a| < tol
    · rw [if_pos hconv]
      refine ⟨List.chain'_singleton _, ?_⟩
      intro hd hmem
      simp only [List.head?_cons, Option.mem_def, Option.some.injEq] at hmem
      subst hmem
      exact ⟨rfl, rfl⟩
    · rw [if_neg hconv]
      by_cases hsign : f a * f ((a + b) / 2) < 0
      · rw [if_pos hsign]
        dsimp only
        obtain ⟨hch, hhd⟩ := ih (i + 1) a ((a + b) / 2)
        refine ⟨?_, ?_⟩
        · rw [List.chain'_cons']
          refine ⟨?_, hch⟩
          intro hd hmem
          obtain ⟨hda, hdb⟩ := hhd hd hmem
          simp only [bisectStepRel]
          rw [if_pos hsign]
          exact ⟨hda, hdb⟩
        · intro hd hmem
          simp only [List.head?_cons, Option.mem_def, Option.some.injEq] at hmem
          subst hmem
          exact ⟨rfl, rfl⟩
      · rw [if_neg hsign]
        dsimp only
        obtain ⟨hch, hhd⟩ := ih (i + 1) ((a + b) / 2) b
        refine ⟨?_, ?_⟩
        · rw [List.chain'_cons']
          refine ⟨?_, hch⟩
          intro hd hmem
          obtain ⟨hda, hdb⟩ := hhd hd hmem
          simp only [bisectStepRel]
          rw [if_neg hsign]
          exact ⟨hda, hdb⟩
        · intro hd hmem
          simp only [List.head?_cons, Option.mem_def, Option.some.injEq] at hmem
          subst hmem
          exact ⟨rfl, rfl⟩

/-- Consecutive regula-falsi rows are related by the identical lines 76-79
update rule. -/
lemma regulaGo_stepChain (f : ℚ → ℚ) (tol : ℚ) :
    ∀ (n i : ℕ) (a b : ℚ) (lastc ro : Option ℚ) (tr : List RegulaRec),
      regulaGo f tol n i a b lastc = .ok (ro, tr) →
      List.Chain' (regulaStepRel f) tr ∧
      ∀ hd ∈ tr.head?, hd.a = a ∧ hd.b = b := by
  intro n
  induction n with
  | zero =>
    intro i a b lastc ro tr heq
    rw [regulaGo] at heq
    simp only [Except.ok.injEq, Prod.mk.injEq] at heq
    obtain ⟨-, htr⟩ := heq
    subst htr
    simp
  | succ n ih =>
    intro i a b lastc ro tr heq
    simp only [regulaGo] at heq
    by_cases hden : f b - f a = 0
    · rw [if_pos hden] at heq
      exact absurd heq (by simp)
    · rw [if_neg hden] at heq
      by_cases hconv : |f ((a * f b - b * f a) / (f b - f a))| < tol
      · rw [if_pos hconv] at heq
        simp only [Except.ok.injEq, Prod.mk.injEq] at heq
        obtain ⟨-, htr⟩ := heq
        subst htr
        refine ⟨List.chain'_singleton _, ?_⟩
        intro hd hmem
        simp only [List.head?_cons, Option.mem_def, Option.some.injEq] at hmem
        subst hmem
        exact ⟨rfl, rfl⟩
      · rw [if_neg hconv] at heq
        by_cases hsign : f a * f ((a * f b - b * f a) / (f b - f a)) < 0
        · rw [if_pos hsign] at heq
          cases hrec : regulaGo f tol n (i + 1) a
              ((a * f b - b * f a) / (f b - f a))
              (some ((a * f b - b * f a) / (f b - f a))) with
          | error msg =>
            rw [hrec] at heq
            exact absurd heq (by simp)
          | ok p =>
            rw [hrec] at heq
            simp only [Except.ok.injEq, Prod.mk.injEq] at heq
            obtain ⟨-, htr⟩ := heq
            subst htr
            obtain ⟨hch, hhd⟩ := ih (i + 1) a
              ((a * f b - b * f a) / (f b - f a))
              (some ((a * f b - b * f a) / (f b - f a))) p.1 p.2 (by rw [hrec])
            refine ⟨?_, ?_⟩
            · rw [List.chain'_cons']
              refine ⟨?_, hch⟩
              intro hd hmem
              obtain ⟨hda, hdb⟩ := hhd hd hmem
              simp only [regulaStepRel]
              rw [if_pos hsign]
              exact ⟨hda, hdb⟩
            · intro hd hmem
              simp only [List.head?_cons, Option.mem_def, Option.some.injEq] at hmem
              subst hmem
              exact ⟨rfl, rfl⟩
        · rw [if_neg hsign] at heq
          cases hrec : regulaGo f tol n (i + 1)
              ((a * f b - b * f a) / (f b - f a)) b
              (some ((a * f b - b * f a) / (f b - f a))) with
          | error msg =>
            rw [hrec] at heq
            exact absurd heq (by simp)
          | ok p =>
            rw [hrec] at heq
            simp only [Except.ok.injEq, Prod.mk.injEq] at heq
            obtain ⟨-, htr⟩ := heq
            subst htr
            obtain ⟨hch, hhd⟩ := ih (i + 1)
              ((a * f b - b * f a) / (f b - f a)) b
              (some ((a * f b - b * f a) / (f b - f a))) p.1 p.2 (by rw [hrec])
            refine ⟨?_, ?_⟩
            · rw [List.chain'_cons']
              refine ⟨?_, hch⟩
              intro hd hmem
              obtain ⟨hda, hdb⟩ := hhd hd hmem
              simp only [regulaStepRel]
              rw [if_neg hsign]
              exact ⟨hda, hdb⟩
            · intro hd hmem
              simp only [List.head?_cons, Option.mem_def, Option.some.injEq] at hmem
              subst hmem
              exact ⟨rfl, rfl⟩

/-- Exact halving (claim C10): the `j`-th bisection row (0-based) has 1-based
index `i + j`, its recorded error is the width of the bracket entering that
iteration, and that width is the initial width divided by `2 ^ j`. -/
lemma bisectGo_rows (f : ℚ → ℚ) (tol : ℚ) :
    ∀ (n i : ℕ) (a b : ℚ) (j : ℕ) (row : BisectRec),
      (bisectGo f tol n i a b).2.get? j = some row →
      row.iter = i + j ∧ row.error = |row.b - row.a| ∧
        row.error = |b - a| / 2 ^ j := by
  intro n
  induction n with
  | zero =>
    intro i a b j row hrow
    simp [bisectGo] at hrow
  | succ n ih =>
    intro i a b j row hrow
    simp only [bisectGo] at hrow
    by_cases hconv : |f ((a + b) / 2)| < tol ∨ |b - a| < tol
    · rw [if_pos hconv] at hrow
      cases j with
      | zero =>
        simp only [List.get?_cons_zero, Option.some.injEq] at hrow
        subst hrow
        simp
      | succ j =>
        simp at hrow
    · rw [if_neg hconv] at hrow
      by_cases hsign : f a * f ((a + b) / 2) < 0
      · rw [if_pos hsign] at hrow
        dsimp only at hrow
        cases j with
        | zero =>
          simp only [List.get?_cons_zero, Option.some.injEq] at hrow
          subst hrow
          simp
        | succ j =>
          rw [List.get?_cons_succ] at hrow
          obtain ⟨hiter, herr, hwid⟩ := ih (i + 1) a ((a + b) / 2) j row hrow
          refine ⟨by omega, herr, ?_⟩
          rw [hwid, abs_mid_sub_left, div_div, ← pow_succ']
      · rw [if_neg hsign] at hrow
        dsimp only at hrow
        cases j with
        | zero =>
          simp only [List.get?_cons_zero, Option.some.injEq] at hrow
          subst hrow
          simp
        | succ j =>
          rw [List.get?_cons_succ] at hrow
          obtain ⟨hiter, herr, hwid⟩ := ih (i + 1) ((a + b) / 2) b j row hrow
          refine ⟨by omega, herr, ?_⟩
          rw [hwid, abs_sub_mid_right, div_div, ← pow_succ']

/-! ## Exception-propagation lemmas (claim C7) -/

/-- If `f` never fails, the fallible bisection loop never lets an exception
escape. -/
lemma bisectGoE_total (f : ℚ → Option ℚ) (tol : ℚ) (hf : ∀ x, f x ≠ none) :
    ∀ (n i : ℕ) (a b : ℚ), bisectGoE f tol n i a b ≠ none := by
  intro n
  induction n with
  | zero =>
    intro i a b
    simp [bisectGoE]
  | succ n ih =>
    intro i a b
    simp only [bisectGoE]
    cases hfc : f ((a + b) / 2) with
    | none => exact absurd hfc (hf _)
    | some fc =>
      dsimp only
      by_cases hconv : |fc| < tol ∨ |b - a| < tol
      · rw [if_pos hconv]
        simp
      · rw [if_neg hconv]
        cases hfa : f a with
        | none => exact absurd hfa (hf _)
        | some fa =>
          dsimp only
          by_cases hsign : fa * fc < 0
          · rw [if_pos hsign]
            cases hrec : bisectGoE f tol n (i + 1) a ((a + b) / 2) with
            | none => exact absurd hrec (ih (i + 1) a ((a + b) / 2))
            | some p => simp
          · rw [if_neg hsign]
            cases hrec : bisectGoE f tol n (i + 1) ((a + b) / 2) b with
            | none => exact absurd hrec (ih (i + 1) ((a + b) / 2) b)
            | some p => simp

/-! ## Claim theorems -/

/-- Claim C5 (confirmed): for bisection and regula falsi, whenever
`f(a) * f(b) >= 0` — including a zero product, i.e. a root at an endpoint —
the method returns the bracketing-error failure immediately, before any
iteration, rather than crashing. -/
theorem claim5_bracket_guard :
    (∀ (f : ℚ → ℚ) (a b tol : ℚ) (n : ℕ), f a * f b ≥ 0 →
      bisection f a b tol n =
        .error "Bisection fails: f(a) and f(b) must have opposite signs.") ∧
    (∀ (f : ℚ → ℚ) (a b tol : ℚ) (n : ℕ), f a * f b ≥ 0 →
      regula_falsi f a b tol n =
        .error "Regula Falsi fails: f(a) and f(b) must have opposite signs.") := by
  constructor
  · intro f a b tol n h
    rw [bisection, if_pos h]
  · intro f a b tol n h
    rw [regula_falsi, if_pos h]

/-- Witness for C5: `f(x) = x² + 1` on `[0, 1]` (spec's no-sign-change
example, product `2 > 0`) and `f(x) = x` on `[0, 1]` (product exactly `0`). -/
theorem claim5_witness :
    (qsqp1 0 * qsqp1 1 ≥ 0 ∧
      bisection qsqp1 0 1 (1/10) 5 =
        .error "Bisection fails: f(a) and f(b) must have opposite signs.") ∧
    (qid 0 * qid 1 ≥ 0 ∧
      regula_falsi qid 0 1 (1/10) 5 =
        .error "Regula Falsi fails: f(a) and f(b) must have opposite signs.") := by
  refine ⟨⟨by norm_num [qsqp1], ?_⟩, ⟨by norm_num [qid], ?_⟩⟩
  · exact claim5_bracket_guard.1 qsqp1 0 1 (1/10) 5 (by norm_num [qsqp1])
  · exact claim5_bracket_guard.2 qid 0 1 (1/10) 5 (by norm_num [qid])

/-- Claim C6 (confirmed): in every non-terminating iteration of bisection and
regula falsi, the bracket update follows the tie-break rule of `ZOF_CLI.py`
lines 45-48 / 76-79: if `f(a)·f(c) < 0` then `b := c`, otherwise — including
the exact tie `f(a)·f(c) = 0` — `a := c`.  Stated over consecutive trace rows. -/
theorem claim6_tie_break :
    (∀ (f : ℚ → ℚ) (a b tol : ℚ) (n : ℕ) (r : ℚ) (tr : List BisectRec),
      bisection f a b tol n = .ok (r, tr) →
      List.Chain' (bisectStepRel f) tr) ∧
    (∀ (f : ℚ → ℚ) (a b tol : ℚ) (n : ℕ) (ro : Option ℚ)
      (tr : List RegulaRec),
      regula_falsi f a b tol n = .ok (ro, tr) →
      List.Chain' (regulaStepRel f) tr) := by
  constructor
  · intro f a b tol n r tr heq
    rw [bisection] at heq
    by_cases hge : f a * f b ≥ 0
    · rw [if_pos hge] at heq
      exact absurd heq (by simp)
    · rw [if_neg hge] at heq
      simp only [Except.ok.injEq] at heq
      have H := (bisectGo_stepChain f tol n 1 a b).1
      rw [heq] at H
      exact H
  · intro f a b tol n ro tr heq
    rw [regula_falsi] at heq
    by_cases hge : f a * f b ≥ 0
    · rw [if_pos hge] at heq
      exact absurd heq (by simp)
    · rw [if_neg hge] at heq
      exact (regulaGo_stepChain f tol n 1 a b none ro tr heq).1

/-- Witness for C6 on a concrete two-iteration bisection run and a concrete
regula-falsi run. -/
theorem claim6_witness :
    List.Chain' (bisectStepRel qid)
      [⟨1, -1, 2, 1/2, 1/2, 3⟩, ⟨2, -1, 1/2, -1/4, -1/4, 3/2⟩] ∧
    List.Chain' (regulaStepRel qsq2) [⟨1, 0, 2, 1, -1, 1⟩] := by
  constructor
  · exact claim6_tie_break.1 qid (-1) 2 (1/10) 2 (1/8)
      [⟨1, -1, 2, 1/2, 1/2, 3⟩, ⟨2, -1, 1/2, -1/4, -1/4, 3/2⟩]
      (by with_unfolding_all rfl)
  · exact claim6_tie_break.2 qsq2 0 2 (1/10) 1 (some 1) [⟨1, 0, 2, 1, -1, 1⟩]
      (by with_unfolding_all rfl)

/-- Claim C8 (confirmed): Newton-Raphson on `f(x) = x² − 2` with the exact
analytic derivative `f'(x) = 2x`, `x0 = 1`, `tol = 1e-6`, `max_iter = 50`
succeeds with at most 10 iterations (it uses 5) and a root within `1e-5` of
`1.414214`. -/
theorem claim8_newton_sqrt2 :
    rootOf (newton_raphson qsq2 qsq2d 1 (1/1000000) 50) =
      some (886731088897 / 627013566048) ∧
    |(886731088897 / 627013566048 : ℚ) - 1414214 / 1000000| < 1 / 100000 ∧
    traceLenOf (newton_raphson qsq2 qsq2d 1 (1/1000000) 50) ≤ 10 := by
  refine ⟨by with_unfolding_all rfl, by rw [abs_lt]; constructor <;> norm_num, ?_⟩
  have h : traceLenOf (newton_raphson qsq2 qsq2d 1 (1/1000000) 50) = 5 := by
    with_unfolding_all rfl
  rw [h]
  norm_num

/-- Claim C9 counterexample: on an empty trace with a successful result, the
CLI output block does not produce tabular output — the unconditional
`history[-1]` access (`ZOF_CLI.py` line 270) raises an `IndexError`. -/
theorem claim9_counterexample :
    cliRenderOutput none 0 [] = .error "IndexError: list index out of range" := by
  rfl

/-- Claim C9 (corrected): the formatter only succeeds on nonempty traces; on
an empty trace with a successful result it raises instead of returning
(possibly empty) tabular output. -/
theorem claim9_amended :
    ∀ (root : ℚ) (hist : List BisectRec), hist ≠ [] →
      ∃ lines, cliRenderOutput none root hist = .ok lines ∧
        lines.length = hist.length + 4 := by
  intro root hist hne
  cases hist with
  | nil => exact absurd rfl hne
  | cons h t =>
    simp only [cliRenderOutput]
    rw [List.getLast?_eq_getLast_of_ne_nil (by simp : (h :: t) ≠ [])]
    refine ⟨_, rfl, ?_⟩
    simp [List.length_append, List.length_map]

/-- Witness for the amended C9 on a one-row trace. -/
theorem claim9_witness :
    ([⟨1, -1, 1, 0, 0, 2⟩] : List BisectRec) ≠ [] ∧
    ∃ lines, cliRenderOutput none 0 [⟨1, -1, 1, 0, 0, 2⟩] = .ok lines ∧
      lines.length = 5 := by
  refine ⟨by simp, ?_⟩
  have h := claim9_amended 0 [⟨1, -1, 1, 0, 0, 2⟩] (by simp)
  simpa using h

/-- Claim C10 (confirmed): for bisection under `f(a)·f(b) < 0`, `tol > 0`,
`max_iter ≥ 1`, the error recorded in the row at 0-based position `j`
(1-based iteration `j + 1`) equals the width `|b − a|` of the bracket entering
that iteration, which equals the initial width divided by `2 ^ j`. -/
theorem claim10_exact_halving :
    ∀ (f : ℚ → ℚ) (a b tol : ℚ) (n : ℕ) (r : ℚ) (tr : List BisectRec),
      f a * f b < 0 → 0 < tol → 1 ≤ n →
      bisection f a b tol n = .ok (r, tr) →
      ∀ (j : ℕ) (row : BisectRec), tr.get? j = some row →
        row.iter = j + 1 ∧ row.error = |row.b - row.a| ∧
          row.error = |b - a| / 2 ^ j := by
  intro f a b tol n r tr hab _ _ heq j row hrow
  rw [bisection, if_neg (not_le.mpr hab)] at heq
  simp only [Except.ok.injEq] at heq
  obtain ⟨hiter, herr, hwid⟩ := bisectGo_rows f tol n 1 a b j row
    (by rw [heq]; exact hrow)
  exact ⟨by omega, herr, hwid⟩

/-- Witness for C10 on the two-iteration run of bisection for `f(x) = x` on
`[-1, 2]`: the second row records error `3/2 = |2 − (−1)| / 2¹`. -/
theorem claim10_witness :
    qid (-1) * qid 2 < 0 ∧ (0:ℚ) < 1/10 ∧ (1 ≤ 2) ∧
    ((⟨2, -1, 1/2, -1/4, -1/4, 3/2⟩ : BisectRec).iter = 1 + 1 ∧
      (⟨2, -1, 1/2, -1/4, -1/4, 3/2⟩ : BisectRec).error =
        |(⟨2, -1, 1/2, -1/4, -1/4, 3/2⟩ : BisectRec).b -
          (⟨2, -1, 1/2, -1/4, -1/4, 3/2⟩ : BisectRec).a| ∧
      (⟨2, -1, 1/2, -1/4, -1/4, 3/2⟩ : BisectRec).error = |2 - (-1)| / 2 ^ 1) := by
  refine ⟨by norm_num [qid], by norm_num, by norm_num, ?_⟩
  exact claim10_exact_halving qid (-1) 2 (1/10) 2 (1/8)
    [⟨1, -1, 2, 1/2, 1/2, 3⟩, ⟨2, -1, 1/2, -1/4, -1/4, 3/2⟩]
    (by norm_num [qid]) (by norm_num) (by norm_num)
    (by with_unfolding_all rfl) 1 ⟨2, -1, 1/2, -1/4, -1/4, 3/2⟩ rfl

/-- Claim C4 (confirmed): for bisection and regula falsi under
`f(a)·f(b) < 0`, `tol > 0`, `max_iter ≥ 1`, the recorded bracket widths are
non-increasing from one iteration to the next, and every returned success
root lies in the original interval `[min(a,b), max(a,b)]`. -/
theorem claim4_bracket_invariants :
    (∀ (f : ℚ → ℚ) (a b tol : ℚ) (n : ℕ) (r : ℚ) (tr : List BisectRec),
      f a * f b < 0 → 0 < tol → 1 ≤ n →
      bisection f a b tol n = .ok (r, tr) →
      (min a b ≤ r ∧ r ≤ max a b) ∧
      List.Chain' (fun u v => bisectWidth v ≤ bisectWidth u) tr) ∧
    (∀ (f : ℚ → ℚ) (a b tol : ℚ) (n : ℕ) (ro : Option ℚ)
      (tr : List RegulaRec),
      f a * f b < 0 → 0 < tol → 1 ≤ n →
      regula_falsi f a b tol n = .ok (ro, tr) →
      (∀ x, ro = some x → min a b ≤ x ∧ x ≤ max a b) ∧
      List.Chain' (fun u v => regulaWidth v ≤ regulaWidth u) tr) := by
  constructor
  · intro f a b tol n r tr hab _ _ heq
    rw [bisection, if_neg (not_le.mpr hab)] at heq
    simp only [Except.ok.injEq] at heq
    have H := bisectGo_inv f tol (min a b) (max a b) n 1 a b
      (min_le_left a b) (le_max_left a b) (min_le_right a b) (le_max_right a b)
    rw [heq] at H
    exact ⟨H.1, H.2.1⟩
  · intro f a b tol n ro tr hab htol _ heq
    rw [regula_falsi, if_neg (not_le.mpr hab)] at heq
    have H := regulaGo_inv f tol (min a b) (max a b) htol n 1 a b none hab
      (min_le_left a b) (le_max_left a b) (min_le_right a b) (le_max_right a b)
      (by intro x hx; exact absurd hx (by simp)) ro tr heq
    exact ⟨fun x hx => H.1 x hx, H.2.1⟩

/-- Witness for C4 on concrete bisection and regula-falsi runs. -/
theorem claim4_witness :
    (qid (-1) * qid 2 < 0 ∧ (0:ℚ) < 1/10 ∧ (1 ≤ 2) ∧
      (min (-1:ℚ) 2 ≤ 1/8 ∧ (1/8:ℚ) ≤ max (-1:ℚ) 2) ∧
      List.Chain' (fun u v => bisectWidth v ≤ bisectWidth u)
        [⟨1, -1, 2, 1/2, 1/2, 3⟩, ⟨2, -1, 1/2, -1/4, -1/4, 3/2⟩]) ∧
    (qsq2 0 * qsq2 2 < 0 ∧ (0:ℚ) < 1/10 ∧ (1 ≤ 1) ∧
      (min (0:ℚ) 2 ≤ 1 ∧ (1:ℚ) ≤ max (0:ℚ) 2) ∧
      List.Chain' (fun u v => regulaWidth v ≤ regulaWidth u)
        [⟨1, 0, 2, 1, -1, 1⟩]) := by
  constructor
  · have H := claim4_bracket_invariants.1 qid (-1) 2 (1/10) 2 (1/8)
      [⟨1, -1, 2, 1/2, 1/2, 3⟩, ⟨2, -1, 1/2, -1/4, -1/4, 3/2⟩]
      (by norm_num [qid]) (by norm_num) (by norm_num) (by with_unfolding_all rfl)
    exact ⟨by norm_num [qid], by norm_num, by norm_num, H.1, H.2⟩
  · have H := claim4_bracket_invariants.2 qsq2 0 2 (1/10) 1 (some 1)
      [⟨1, 0, 2, 1, -1, 1⟩]
      (by norm_num [qsq2]) (by norm_num) (by norm_num) (by with_unfolding_all rfl)
    exact ⟨by norm_num [qsq2], by norm_num, by norm_num, H.1 1 rfl, H.2⟩

/-- Claim C3 counterexample: bisection for `f(x) = x` on `[-1, 1]` with
`tol = 1/2`, `max_iter = 5` converges at once via `|f(c)| < tol`, so it
returns success whose single (= last) record has error metric `2`, which is
not `< tol`, while `iterations_used = 1 ≠ 5 = max_iter`. -/
theorem claim3_counterexample :
    bisection qid (-1) 1 (1/2) 5 = .ok (0, [⟨1, -1, 1, 0, 0, 2⟩]) ∧
    ¬ ((2:ℚ) < 1/2) ∧ (1:ℕ) ≠ 5 := by
  refine ⟨by with_unfolding_all rfl, by norm_num, by norm_num⟩

/-- Claim C3 (corrected): on success, either the trace is exhausted
(`length = max_iter`) or the last record satisfies the method's convergence
predicate — which for every method except bisection is `error < tol` on the
recorded error metric, but for bisection is `|f_mid| < tol OR error < tol`
(the recorded error `|b−a|` may stay `≥ tol` when `|f(c)| < tol` triggers). -/
theorem claim3_amended :
    (∀ (f : ℚ → ℚ) (a b tol : ℚ) (n : ℕ) (r : ℚ) (tr : List BisectRec),
      bisection f a b tol n = .ok (r, tr) →
      (∃ last ∈ tr.getLast?, |last.f_mid| < tol ∨ last.error < tol) ∨
        tr.length = n) ∧
    (∀ (f : ℚ → ℚ) (a b tol : ℚ) (n : ℕ) (ro : Option ℚ)
      (tr : List RegulaRec),
      regula_falsi f a b tol n = .ok (ro, tr) →
      (∃ last ∈ tr.getLast?, last.error < tol) ∨ tr.length = n) ∧
    (∀ (f : ℚ → ℚ) (x0 x1 tol : ℚ) (n : ℕ) (r : ℚ) (tr : List SecantRec),
      secant f x0 x1 tol n = .ok (r, tr) →
      (∃ last ∈ tr.getLast?, last.error < tol) ∨ tr.length = n) ∧
    (∀ (f df : ℚ → ℚ) (x0 tol : ℚ) (n : ℕ) (r : ℚ) (tr : List NewtonRec),
      newton_raphson f df x0 tol n = .ok (r, tr) →
      (∃ last ∈ tr.getLast?, last.error < tol) ∨ tr.length = n) ∧
    (∀ (g : ℚ → ℚ) (x0 tol : ℚ) (n : ℕ) (r : ℚ) (tr : List FixedRec),
      fixed_point g x0 tol n = .ok (r, tr) →
      (∃ last ∈ tr.getLast?, last.error < tol) ∨ tr.length = n) ∧
    (∀ (f : ℚ → ℚ) (x0 delta tol : ℚ) (n : ℕ) (r : ℚ) (tr : List ModSecRec),
      modified_secant f x0 delta tol n = .ok (r, tr) →
      (∃ last ∈ tr.getLast?, last.error < tol) ∨ tr.length = n) := by
  refine ⟨?_, ?_, ?_, ?_, ?_, ?_⟩
  · intro f a b tol n r tr heq
    rw [bisection] at heq
    by_cases hge : f a * f b ≥ 0
    · rw [if_pos hge] at heq
      exact absurd heq (by simp)
    · rw [if_neg hge] at heq
      simp only [Except.ok.injEq] at heq
      have H := bisectGo_success f tol n 1 a b
      rw [heq] at H
      exact H.symm
  · intro f a b tol n ro tr heq
    rw [regula_falsi] at heq
    by_cases hge : f a * f b ≥ 0
    · rw [if_pos hge] at heq
      exact absurd heq (by simp)
    · rw [if_neg hge] at heq
      exact (regulaGo_success f tol n 1 a b none ro tr heq).symm
  · intro f x0 x1 tol n r tr heq
    exact (secantGo_success f tol n 1 x0 x1 r tr heq).symm
  · intro f df x0 tol n r tr heq
    exact (newtonGo_success f df tol n 1 x0 r tr heq).symm
  · intro g x0 tol n r tr heq
    exact (fixedGo_success g tol n 1 x0 r tr heq).symm
  · intro f x0 delta tol n r tr heq
    exact (modSecGo_success f delta tol n 1 x0 r tr heq).symm

/-- Witness for the amended C3 on one concrete success run per method. -/
theorem claim3_witness :
    ((∃ last ∈ ([⟨1, -1, 1, 0, 0, 2⟩] : List BisectRec).getLast?,
        |last.f_mid| < (1/2 : ℚ) ∨ last.error < 1/2) ∨
      ([⟨1, -1, 1, 0, 0, 2⟩] : List BisectRec).length = 5) ∧
    ((∃ last ∈ ([⟨1, 0, 2, 1, -1, 1⟩] : List RegulaRec).getLast?,
        last.error < (1/10 : ℚ)) ∨
      ([⟨1, 0, 2, 1, -1, 1⟩] : List RegulaRec).length = 1) ∧
    ((∃ last ∈ ([⟨1, 0, 4, 0, 4⟩] : List SecantRec).getLast?,
        last.error < (1/10 : ℚ)) ∨
      ([⟨1, 0, 4, 0, 4⟩] : List SecantRec).length = 1) ∧
    ((∃ last ∈ ([⟨1, 5, 5, 1, 0, 5⟩] : List NewtonRec).getLast?,
        last.error < (1/10 : ℚ)) ∨
      ([⟨1, 5, 5, 1, 0, 5⟩] : List NewtonRec).length = 1) ∧
    ((∃ last ∈ ([⟨1, 0, 1, 1⟩] : List FixedRec).getLast?,
        last.error < (1/2 : ℚ)) ∨
      ([⟨1, 0, 1, 1⟩] : List FixedRec).length = 1) ∧
    ((∃ last ∈ ([⟨1, 3, 0, 3⟩] : List ModSecRec).getLast?,
        last.error < (1/10 : ℚ)) ∨
      ([⟨1, 3, 0, 3⟩] : List ModSecRec).length = 1) := by
  refine ⟨?_, ?_, ?_, ?_, ?_, ?_⟩
  · exact claim3_amended.1 qid (-1) 1 (1/2) 5 0 [⟨1, -1, 1, 0, 0, 2⟩]
      (by with_unfolding_all rfl)
  · exact claim3_amended.2.1 qsq2 0 2 (1/10) 1 (some 1) [⟨1, 0, 2, 1, -1, 1⟩]
      (by with_unfolding_all rfl)
  · exact claim3_amended.2.2.1 qid 0 4 (1/10) 1 0 [⟨1, 0, 4, 0, 4⟩]
      (by with_unfolding_all rfl)
  · exact claim3_amended.2.2.2.1 qid qone 5 (1/10) 1 0 [⟨1, 5, 5, 1, 0, 5⟩]
      (by with_unfolding_all rfl)
  · exact claim3_amended.2.2.2.2.1 qsucc 0 (1/2) 1 1 [⟨1, 0, 1, 1⟩]
      (by with_unfolding_all rfl)
  · exact claim3_amended.2.2.2.2.2 qid 3 1 (1/10) 1 0 [⟨1, 3, 0, 3⟩]
      (by with_unfolding_all rfl)

/-- Claim C1 counterexample.  (1) Bisection for `f(x) = x` on `[-1, 2]`,
`tol = 1/10`, `max_iter = 1`: the loop exhausts without converging, yet the
returned root `-1/4` is the midpoint of the *updated* bracket `[-1, 1/2]`
(`ZOF_CLI.py` line 50), not the last computed estimate `1/2` recorded in the
trace.  (2) Fixed point with `g(x) = x + 2e10`, `x0 = 0`, `tol = 1`,
`max_iter = 1`: the single (= final) iteration runs fully without the
convergence predicate holding, yet the divergence guard makes the method
return a failure, not a success. -/
theorem claim1_counterexample :
    (bisection qid (-1) 2 (1/10) 1 = .ok (-1/4, [⟨1, -1, 2, 1/2, 1/2, 3⟩]) ∧
      (-1/4 : ℚ) ≠ 1/2) ∧
    fixed_point qbig 0 1 1 = .error "Method diverged." := by
  refine ⟨⟨by with_unfolding_all rfl, by norm_num⟩, by with_unfolding_all rfl⟩

/-- Claim C1 (corrected): with a valid bracket, bisection always returns a
success outcome; for every method, a success outcome none of whose trace rows
satisfies the convergence predicate has used exactly `max_iter` iterations
(`trace length = max_iter`), and its root is the last computed estimate —
except for bisection, whose root is the midpoint of the bracket obtained by
applying the final update to the last row's bracket; and for fixed point, a
divergence trip in the final iteration yields a failure instead of a success
(excluded here by conditioning on a success outcome). -/
theorem claim1_amended :
    (∀ (f : ℚ → ℚ) (a b tol : ℚ) (n : ℕ), f a * f b < 0 →
      ∃ r tr, bisection f a b tol n = .ok (r, tr)) ∧
    (∀ (f : ℚ → ℚ) (a b tol : ℚ) (n : ℕ) (r : ℚ) (tr : List BisectRec),
      bisection f a b tol n = .ok (r, tr) →
      (∀ row ∈ tr, ¬(|row.f_mid| < tol ∨ row.error < tol)) →
      tr.length = n ∧ ∀ last ∈ tr.getLast?, r = bisectNextRoot f last) ∧
    (∀ (f : ℚ → ℚ) (a b tol : ℚ) (n : ℕ) (ro : Option ℚ)
      (tr : List RegulaRec),
      regula_falsi f a b tol n = .ok (ro, tr) →
      (∀ row ∈ tr, ¬ |row.f_c| < tol) →
      tr.length = n ∧ ∀ last ∈ tr.getLast?, ro = some last.c) ∧
    (∀ (f : ℚ → ℚ) (x0 x1 tol : ℚ) (n : ℕ) (r : ℚ) (tr : List SecantRec),
      secant f x0 x1 tol n = .ok (r, tr) →
      (∀ row ∈ tr, ¬ row.error < tol) →
      tr.length = n ∧ ∀ last ∈ tr.getLast?, r = last.x_new) ∧
    (∀ (f df : ℚ → ℚ) (x0 tol : ℚ) (n : ℕ) (r : ℚ) (tr : List NewtonRec),
      newton_raphson f df x0 tol n = .ok (r, tr) →
      (∀ row ∈ tr, ¬ row.error < tol) →
      tr.length = n ∧ ∀ last ∈ tr.getLast?, r = last.x_next) ∧
    (∀ (g : ℚ → ℚ) (x0 tol : ℚ) (n : ℕ) (r : ℚ) (tr : List FixedRec),
      fixed_point g x0 tol n = .ok (r, tr) →
      (∀ row ∈ tr, ¬ row.error < tol) →
      tr.length = n ∧ ∀ last ∈ tr.getLast?, r = last.g_x) ∧
    (∀ (f : ℚ → ℚ) (x0 delta tol : ℚ) (n : ℕ) (r : ℚ) (tr : List ModSecRec),
      modified_secant f x0 delta tol n = .ok (r, tr) →
      (∀ row ∈ tr, ¬ row.error < tol) →
      tr.length = n ∧ ∀ last ∈ tr.getLast?, r = last.x_next) := by
  refine ⟨?_, ?_, ?_, ?_, ?_, ?_, ?_⟩
  · intro f a b tol n h
    refine ⟨(bisectGo f tol n 1 a b).1, (bisectGo f tol n 1 a b).2, ?_⟩
    rw [bisection, if_neg (not_le.mpr h)]
  · intro f a b tol n r tr heq hnc
    rw [bisection] at heq
    by_cases hge : f a * f b ≥ 0
    · rw [if_pos hge] at heq
      exact absurd heq (by simp)
    · rw [if_neg hge] at heq
      simp only [Except.ok.injEq] at heq
      have H := bisectGo_exhaust f tol n 1 a b
      rw [heq] at H
      exact H hnc
  · intro f a b tol n ro tr heq hnc
    rw [regula_falsi] at heq
    by_cases hge : f a * f b ≥ 0
    · rw [if_pos hge] at heq
      exact absurd heq (by simp)
    · rw [if_neg hge] at heq
      obtain ⟨hlen, -, hlast⟩ := regulaGo_exhaust f tol n 1 a b none ro tr heq hnc
      exact ⟨hlen, hlast⟩
  · intro f x0 x1 tol n r tr heq hnc
    obtain ⟨hlen, -, hlast⟩ := secantGo_exhaust f tol n 1 x0 x1 r tr heq hnc
    exact ⟨hlen, hlast⟩
  · intro f df x0 tol n r tr heq hnc
    obtain ⟨hlen, -, hlast⟩ := newtonGo_exhaust f df tol n 1 x0 r tr heq hnc
    exact ⟨hlen, hlast⟩
  · intro g x0 tol n r tr heq hnc
    obtain ⟨hlen, -, hlast⟩ := fixedGo_exhaust g tol n 1 x0 r tr heq hnc
    exact ⟨hlen, hlast⟩
  · intro f x0 delta tol n r tr heq hnc
    obtain ⟨hlen, -, hlast⟩ := modSecGo_exhaust f delta tol n 1 x0 r tr heq hnc
    exact ⟨hlen, hlast⟩

/-- Witness for the amended C1, instantiating every conjunct on a concrete
non-converging one-iteration run. -/
theorem claim1_witness :
    (∃ r tr, bisection qid (-1) 2 (1/10) 1 = .ok (r, tr)) ∧
    (([⟨1, -1, 2, 1/2, 1/2, 3⟩] : List BisectRec).length = 1 ∧
      ∀ last ∈ ([⟨1, -1, 2, 1/2, 1/2, 3⟩] : List BisectRec).getLast?,
        (-1/4 : ℚ) = bisectNextRoot qid last) ∧
    (([⟨1, 0, 2, 1, -1, 1⟩] : List RegulaRec).length = 1 ∧
      ∀ last ∈ ([⟨1, 0, 2, 1, -1, 1⟩] : List RegulaRec).getLast?,
        (some 1 : Option ℚ) = some last.c) ∧
    (([⟨1, 0, 4, 0, 4⟩] : List SecantRec).length = 1 ∧
      ∀ last ∈ ([⟨1, 0, 4, 0, 4⟩] : List SecantRec).getLast?,
        (0 : ℚ) = last.x_new) ∧
    (([⟨1, 5, 5, 1, 0, 5⟩] : List NewtonRec).length = 1 ∧
      ∀ last ∈ ([⟨1, 5, 5, 1, 0, 5⟩] : List NewtonRec).getLast?,
        (0 : ℚ) = last.x_next) ∧
    (([⟨1, 0, 1, 1⟩] : List FixedRec).length = 1 ∧
      ∀ last ∈ ([⟨1, 0, 1, 1⟩] : List FixedRec).getLast?,
        (1 : ℚ) = last.g_x) ∧
    (([⟨1, 3, 0, 3⟩] : List ModSecRec).length = 1 ∧
      ∀ last ∈ ([⟨1, 3, 0, 3⟩] : List ModSecRec).getLast?,
        (0 : ℚ) = last.x_next) := by
  refine ⟨?_, ?_, ?_, ?_, ?_, ?_, ?_⟩
  · exact claim1_amended.1 qid (-1) 2 (1/10) 1 (by norm_num [qid])
  · refine claim1_amended.2.1 qid (-1) 2 (1/10) 1 (-1/4)
      [⟨1, -1, 2, 1/2, 1/2, 3⟩] (by with_unfolding_all rfl) ?_
    intro row hmem
    simp only [List.mem_singleton] at hmem
    subst hmem
    have h12 : |(1/2 : ℚ)| = 1/2 := abs_of_pos (by norm_num)
    norm_num [qid, h12]
  · refine claim1_amended.2.2.1 qsq2 0 2 (1/10) 1 (some 1)
      [⟨1, 0, 2, 1, -1, 1⟩] (by with_unfolding_all rfl) ?_
    intro row hmem
    simp only [List.mem_singleton] at hmem
    subst hmem
    norm_num
  · refine claim1_amended.2.2.2.1 qid 0 4 (1/10) 1 0
      [⟨1, 0, 4, 0, 4⟩] (by with_unfolding_all rfl) ?_
    intro row hmem
    simp only [List.mem_singleton] at hmem
    subst hmem
    norm_num
  · refine claim1_amended.2.2.2.2.1 qid qone 5 (1/10) 1 0
      [⟨1, 5, 5, 1, 0, 5⟩] (by with_unfolding_all rfl) ?_
    intro row hmem
    simp only [List.mem_singleton] at hmem
    subst hmem
    norm_num
  · refine claim1_amended.2.2.2.2.2.1 qsucc 0 (1/2) 1 1
      [⟨1, 0, 1, 1⟩] (by with_unfolding_all rfl) ?_
    intro row hmem
    simp only [List.mem_singleton] at hmem
    subst hmem
    norm_num
  · refine claim1_amended.2.2.2.2.2.2 qid 3 1 (1/10) 1 0
      [⟨1, 3, 0, 3⟩] (by with_unfolding_all rfl) ?_
    intro row hmem
    simp only [List.mem_singleton] at hmem
    subst hmem
    norm_num

/-- Claim C2 counterexample: no parameter validation exists.  With
`max_iter = 0 < 1` (valid bracket), bisection returns a *success* with an
empty trace; with `tol = 0 ≤ 0` it simply runs to exhaustion and returns a
success.  Neither is an InvalidParameter failure. -/
theorem claim2_counterexample :
    bisection qid (-1) 1 1 0 = .ok (0, []) ∧
    bisection qid (-1) 1 0 2 =
      .ok (3/4, [⟨1, -1, 1, 0, 0, 2⟩, ⟨2, 0, 1, 1/2, 1/2, 1⟩]) := by
  refine ⟨by with_unfolding_all rfl, by with_unfolding_all rfl⟩

/-- Claim C2 (corrected): the methods perform no `tol`/`max_iter` validation.
With a valid bracket, `max_iter = 0` makes bisection return success with an
empty trace, and `tol ≤ 0` makes the convergence predicate unsatisfiable, so
every bisection success then carries exactly `max_iter` records. -/
theorem claim2_amended :
    (∀ (f : ℚ → ℚ) (a b tol : ℚ), f a * f b < 0 →
      bisection f a b tol 0 = .ok ((a + b) / 2, [])) ∧
    (∀ (f : ℚ → ℚ) (a b tol : ℚ) (n : ℕ) (r : ℚ) (tr : List BisectRec),
      tol ≤ 0 → bisection f a b tol n = .ok (r, tr) → tr.length = n) := by
  constructor
  · intro f a b tol h
    rw [bisection, if_neg (not_le.mpr h), bisectGo]
  · intro f a b tol n r tr htol heq
    rw [bisection] at heq
    by_cases hge : f a * f b ≥ 0
    · rw [if_pos hge] at heq
      exact absurd heq (by simp)
    · rw [if_neg hge] at heq
      simp only [Except.ok.injEq] at heq
      have H := bisectGo_exhaust f tol n 1 a b
      rw [heq] at H
      refine (H ?_).1
      intro row hmem
      rintro (h1 | h2)
      · have hge0 := abs_nonneg row.f_mid
        linarith
      · obtain ⟨j, hj⟩ := List.get?_of_mem hmem
        have hrow := bisectGo_rows f tol n 1 a b j row (by rw [heq]; exact hj)
        have hge0 := abs_nonneg (row.b - row.a)
        rw [hrow.2.1] at h2
        linarith

/-- Witness for the amended C2 on concrete runs with `max_iter = 0` and
`tol = 0`. -/
theorem claim2_witness :
    (qid (-1) * qid 1 < 0 ∧ bisection qid (-1) 1 1 0 = .ok ((-1 + 1) / 2, [])) ∧
    ((0:ℚ) ≤ 0 ∧
      ([⟨1, -1, 1, 0, 0, 2⟩, ⟨2, 0, 1, 1/2, 1/2, 1⟩] : List BisectRec).length = 2) := by
  refine ⟨⟨by norm_num [qid], ?_⟩, ⟨le_refl 0, ?_⟩⟩
  · exact claim2_amended.1 qid (-1) 1 1 (by norm_num [qid])
  · exact claim2_amended.2 qid (-1) 1 0 2 (3/4)
      [⟨1, -1, 1, 0, 0, 2⟩, ⟨2, 0, 1, 1/2, 1/2, 1⟩] (le_refl 0)
      (by with_unfolding_all rfl)

/-- Claim C7 counterexample: in `ZOF_CLI.py`, an evaluation failure at a
visited point (here: a function undefined at the first midpoint `1/2` of
`[-1, 2]`) propagates out of the solver function `bisection` as an exception
(`none`), instead of being returned as a controlled failure outcome. -/
theorem claim7_counterexample :
    bisectionE fHole (-1) 2 (1/10) 5 = none := by
  with_unfolding_all rfl

/-- Claim C7 (corrected): only `app.py`'s `run_method` converts an evaluation
exception into a controlled error outcome; in `ZOF_CLI.py` the exception
escapes the solver function and is caught by the front-end `main` handler
(so the program does not crash, but the solver returns no failure outcome).
When `f` never fails, no exception arises at all. -/
theorem claim7_amended :
    (∀ (f : ℚ → Option ℚ) (a b tol : ℚ) (n : ℕ),
      bisectionE f a b tol n = none →
      run_method_bisection f a b tol n = .failure "exception") ∧
    (∀ (f : ℚ → Option ℚ) (a b tol : ℚ) (n : ℕ),
      bisectionE f a b tol n = none →
      cliMainGuard (bisectionE f a b tol n) = .error "An error occurred") ∧
    (∀ (f : ℚ → Option ℚ) (a b tol : ℚ) (n : ℕ),
      (∀ x, f x ≠ none) → bisectionE f a b tol n ≠ none) := by
  refine ⟨?_, ?_, ?_⟩
  · intro f a b tol n h
    rw [run_method_bisection, h]
  · intro f a b tol n h
    rw [h, cliMainGuard]
  · intro f a b tol n hf
    rw [bisectionE]
    cases hfa : f a with
    | none => exact absurd hfa (hf a)
    | some fa =>
      dsimp only
      cases hfb : f b with
      | none => exact absurd hfb (hf b)
      | some fb =>
        dsimp only
        by_cases hge : fa * fb ≥ 0
        · rw [if_pos hge]
          simp
        · rw [if_neg hge]
          cases hrec : bisectGoE f tol n 1 a b with
          | none => exact absurd hrec (bisectGoE_total f tol hf n 1 a b)
          | some p => simp

/-- Witness for the amended C7: the failing function is contained by
`app.py`'s handler and by the CLI front end, and a total function never
raises. -/
theorem claim7_witness :
    run_method_bisection fHole (-1) 2 (1/10) 5 = .failure "exception" ∧
    cliMainGuard (bisectionE fHole (-1) 2 (1/10) 5) = .error "An error occurred" ∧
    bisectionE fTotal (-1) 2 (1/10) 5 ≠ none := by
  refine ⟨?_, ?_, ?_⟩
  · exact claim7_amended.1 fHole (-1) 2 (1/10) 5 (by with_unfolding_all rfl)
  · exact claim7_amended.2.1 fHole (-1) 2 (1/10) 5 (by with_unfolding_all rfl)
  · exact claim7_amended.2.2 fTotal (-1) 2 (1/10) 5
      (fun x h => Option.noConfusion h)
